import Mathlib

/-!
Verification of the todo-list engine of `git-revise` (`gitrevise/todo.py`).

The Python source is shallowly embedded: byte strings become `Str := List Char`,
commit/tree identities become `Oid := Nat`, the backing object store (odb) is a
record of abstract operations, exceptions become `Except`, and the in-place
mutation of the executor becomes explicit state passing.  Definitions follow
the source function by function; operations of the object database that are
not part of the source under verification are modelled from the specification
and marked as such.
-/

namespace GitRevise

/-- Byte strings of the Python source (`bytes`/`str`) are modelled as lists of
characters. -/
abbrev Str := List Char

/-- Modelled from the spec: an identity (Oid) is an opaque, comparable content
hash; the sole notion of equality for commits and trees. -/
abbrev Oid := Nat

/-- Python whitespace characters, as used by `bytes.split()`, `bytes.strip()`
and `bytes.isspace()`. -/
def isPyWS (c : Char) : Bool :=
  c = ' ' ∨ c = '\t' ∨ c = '\n' ∨ c = '\r' ∨ c = '\x0b' ∨ c = '\x0c'

/-- Python `bytes.strip()`: remove leading and trailing whitespace. -/
def pyStrip (s : Str) : Str :=
  ((s.dropWhile isPyWS).reverse.dropWhile isPyWS).reverse

/-- Python `bytes.isspace()`: nonempty and all whitespace. -/
def pyIsSpace (s : Str) : Bool :=
  !s.isEmpty && s.all isPyWS

/-- Modelled from the spec: a commit is an immutable node with a tree identity,
parent identities, a message and authorship (`odb.Commit`, not part of the
source under verification).  `oid` is the commit's content hash. -/
structure Commit where
  oid : Oid
  tree_oid : Oid
  parent_oids : List Oid
  message : Str
  author : Nat
deriving DecidableEq

/-- Modelled from the spec: `Commit.summary()` of the object store — the first
line of the commit message. -/
def Commit.summary (c : Commit) : Str :=
  c.message.takeWhile (fun ch => ch ≠ '\n')

/-- Modelled from the spec: `Commit.message_with_edited_summary` — replace only
the first line of the message, leaving the body untouched. -/
def Commit.message_with_edited_summary (c : Commit) (summ : Str) : Str :=
  summ ++ c.message.dropWhile (fun ch => ch ≠ '\n')

/-- Modelled from the spec: short identity formatting (`Oid.short()`). -/
def shortOid (o : Oid) : Str := (toString o).toList

/-- Source `class CommitAction(Enum)` — the commit-bearing actions, in declaration
order. -/
inductive CommitAction where
  | pick
  | fixup
  | squash
  | reword
  | cut
  | index
deriving DecidableEq

/-- The canonical name (`value`) of each commit-bearing action. -/
def CommitAction.str : CommitAction → Str
  | .pick => "pick".toList
  | .fixup => "fixup".toList
  | .squash => "squash".toList
  | .reword => "reword".toList
  | .cut => "cut".toList
  | .index => "index".toList

/-- Iteration order of `CommitAction` (declaration order). -/
def CommitAction.all : List CommitAction :=
  [.pick, .fixup, .squash, .reword, .cut, .index]

/-- Source `class CommitlessAction(Enum)` — the commit-less actions, in declaration
order. -/
inductive CommitlessAction where
  | comment
  | updateRef
deriving DecidableEq

/-- The canonical name (`value`) of each commit-less action. -/
def CommitlessAction.str : CommitlessAction → Str
  | .comment => "#".toList
  | .updateRef => "update-ref".toList

/-- Iteration order of `CommitlessAction` (declaration order). -/
def CommitlessAction.all : List CommitlessAction :=
  [.comment, .updateRef]

/-- Either family of action, as returned by `parse_action`. -/
abbrev Action := Sum CommitAction CommitlessAction

/-- The canonical name of an action of either family. -/
def Action.str : Action → Str
  | .inl a => a.str
  | .inr a => a.str

/-- The full ordered list of declared actions: commit-bearing first, then
commit-less, each in declaration order. -/
def allActions : List Action :=
  CommitAction.all.map Sum.inl ++ CommitlessAction.all.map Sum.inr

/-- Source `parse_action(instr)`: return the first enum value, iterating
`CommitAction` then `CommitlessAction` in declaration order, whose canonical
name starts with `instr`; raise `ValueError` otherwise. -/
def parse_action (instr : Str) : Except String Action :=
  match CommitAction.all.find? (fun a => instr.isPrefixOf a.str) with
  | some a => .ok (.inl a)
  | none =>
    match CommitlessAction.all.find? (fun a => instr.isPrefixOf a.str) with
    | some a => .ok (.inr a)
    | none => .error ("Unrecognized action. Expected one of"
        ++ " pick, fixup, squash, reword, cut, index, update-ref or #")

/-- Source `class CommitlessStep`: a commit-less action with its operand. -/
structure CommitlessStep where
  action : CommitlessAction
  operand : Str
deriving DecidableEq

/-- Source `CommitlessStep.to_bytes`. -/
def CommitlessStep.to_bytes (s : CommitlessStep) : Str :=
  s.action.str ++ ' ' :: s.operand

/-- Source `class CommitStep`: a commit-bearing action, its commit, a message and the
owned list of extra steps. -/
structure CommitStep where
  action : CommitAction
  commit : Commit
  message : Str
  extrasteps : List CommitlessStep
deriving DecidableEq

/-- Source `CommitStep.__init__`: the message starts out as the commit's message and
the extra-step list empty. -/
def CommitStep.init (action : CommitAction) (commit : Commit) : CommitStep :=
  ⟨action, commit, commit.message, []⟩

/-- Source `CommitStep.__str__`: `"<action> <short oid>"`. -/
def CommitStep.toStr (s : CommitStep) : Str :=
  s.action.str ++ ' ' :: shortOid s.commit.oid

/-- Source `CommitStep.significant_extrasteps`: extra steps that are not comments. -/
def CommitStep.significant_extrasteps (s : CommitStep) : List CommitlessStep :=
  s.extrasteps.filter (fun x => x.action ≠ CommitlessAction.comment)

/-- Either kind of parsed step (`Union[CommitStep, CommitlessStep]`). -/
abbrev PolyStep := Sum CommitStep CommitlessStep

/-- The regex `(?P<action>\S+)\s+(?P<operand>\S+)(\s+(?P<summary>.*))?$` of
`parse_step`, decomposed into (action token, operand, optional summary).
`none` means the line does not match. -/
def matchStepLine (instr : Str) : Option (Str × Str × Option Str) :=
  let atok := instr.takeWhile (fun c => !isPyWS c)
  if atok.isEmpty then none
  else
    let r1 := instr.dropWhile (fun c => !isPyWS c)
    let r2 := r1.dropWhile isPyWS
    if r1.isEmpty then none
    else
      let operand := r2.takeWhile (fun c => !isPyWS c)
      if operand.isEmpty then none
      else
        let r3 := r2.dropWhile (fun c => !isPyWS c)
        if r3.isEmpty then some (atok, operand, none)
        else some (atok, operand, some (r3.dropWhile isPyWS))

/-- Source `parse_step(repo, instr)`: parse one todo entry.  `resolve` models
`repo.get_commit` (commit lookup by reference string). -/
def parse_step (resolve : Str → Except String Commit) (instr : Str) :
    Except String PolyStep :=
  match matchStepLine instr with
  | none => .error ("todo entry must follow format"
      ++ " <action> <operand> <optional summary>")
  | some (atok, operand, summ) =>
    match parse_action atok with
    | .error e => .error e
    | .ok (.inr a) => .ok (.inr ⟨a, operand⟩)
    | .ok (.inl a) =>
      match resolve operand with
      | .error e => .error e
      | .ok commit =>
        let step := CommitStep.init a commit
        match summ with
        | none => .ok (.inl step)
        | some s => .ok (.inl { step with
            message := commit.message_with_edited_summary s })

/-- The `line.split(b" ", maxsplit=1)` of the worktree porcelain parsing: key and
optional value split at the first space. -/
def keyvalOf (line : Str) : Str × Option Str :=
  let k := line.takeWhile (fun c => c ≠ ' ')
  match line.dropWhile (fun c => c ≠ ' ') with
  | [] => (k, none)
  | _ :: v => (k, some v)

/-- One record's contribution to the `outchecked` set of `build_todos`: the
value of every `branch` line.  The source indexes `keyval[1]` unconditionally
(todo.py:140), so a bare `branch` line without a value raises `IndexError`. -/
def outcheckedLines : List Str → Except String (List Str)
  | [] => .ok []
  | line :: rest =>
    let kv := keyvalOf line
    if kv.1 = "branch".toList then
      match kv.2 with
      | some v => do
        let l ← outcheckedLines rest
        return v :: l
      | none => .error "IndexError: list index out of range"
    else outcheckedLines rest

/-- The `outchecked` set of `build_todos`: every value of a `branch` line in
every record of `git worktree list --porcelain` — no record, the main
worktree's included, is excluded (the record and line splitting of the
pass-through listing is taken as input). -/
def outcheckedOf : List (List Str) → Except String (List Str)
  | [] => .ok []
  | record :: rest => do
    let a ← outcheckedLines record
    let b ← outcheckedOf rest
    return a ++ b

/-- Source `build_todos(repo, commits, index)`.  The two external listings are taken
as inputs: `show_ref` is the parsed `git show-ref --heads --tags` output
(commit identity and ref name per line, in line order) and `worktree_records`
the split records of `git worktree list --porcelain`. -/
def build_todos (commits : List Commit) (index : Option Commit)
    (show_ref : List (Oid × Str)) (worktree_records : List (List Str)) :
    Except String (List CommitStep) := do
  let steps := commits.map (CommitStep.init .pick) ++
    (match index with
     | some c => [CommitStep.init .index c]
     | none => [])
  let commit_refs := fun oid =>
    (show_ref.filter (fun p => p.1 == oid)).map (fun p => p.2)
  let outchecked ← outcheckedOf worktree_records
  return steps.map (fun step =>
    { step with extrasteps := step.extrasteps ++
        (commit_refs step.commit.oid).map (fun ref =>
          if ("refs/heads/".toList.isPrefixOf ref) ∧ ref ∉ outchecked
          then ⟨CommitlessAction.updateRef, ref⟩
          else ⟨CommitlessAction.comment, ref⟩) })

/-- Modelled from the spec's words, for comparison with the source: the set
of branches checked out in any worktree other than the main one being
revised; `git worktree list --porcelain` lists the main worktree as its
first record, so this reads only the later records (and, unlike the source,
has no value to index on a bare `branch` line). -/
def outcheckedSpec (worktree_records : List (List Str)) : List Str :=
  (worktree_records.drop 1).flatMap (fun record =>
    record.filterMap (fun line =>
      let kv := keyvalOf line
      if kv.1 = "branch".toList then kv.2 else none))

/-- The distinct user-facing rejections of `validate_todos` (the first is the
`assert` on the original plan). -/
inductive ValidationError where
  | duplicateOriginal
  | duplicateCommit
  | foreignCommit
  | dropNonempty (oid : Oid)
  | indexOrder
deriving DecidableEq

/-- The `dropped_list`: original commits, in original order, whose identity does
not appear in the edited plan. -/
def droppedOf (old new : List CommitStep) : List Commit :=
  (old.filter (fun o => o.commit.oid ∉ new.map (fun n => n.commit.oid))).map
    (fun o => o.commit)

/-- The `while` walk of `validate_todos` over `dropped_list`, with a fuel
argument making the recursion structural (each iteration drops at least one
entry, so any fuel from the list's length up computes the loop —
`dropWalkFuel_irrel` and `dropWalk_cons` below): while the head has exactly
one parent, look up that parent's tree and scan forward for an entry with
that same tree; discard through it and repeat, else stop.  `lookup` models
commit lookup by identity (`Commit.parents()`). -/
def dropWalkFuel (lookup : Oid → Commit) : Nat → List Commit → List Commit
  | _, [] => []
  | 0, l => l
  | fuel+1, c :: rest =>
    if c.parent_oids.length = 1 then
      match (c :: rest).findIdx?
          (fun k => k.tree_oid == (lookup (c.parent_oids.headD 0)).tree_oid) with
      | some i => dropWalkFuel lookup fuel (rest.drop i)
      | none => c :: rest
    else c :: rest

/-- The walk of `validate_todos`, run with enough fuel. -/
def dropWalk (lookup : Oid → Commit) (l : List Commit) : List Commit :=
  dropWalkFuel lookup l.length l

/-- Any fuel at least the list's length computes the same walk: the fuel of
`dropWalkFuel` is never exhausted. -/
theorem dropWalkFuel_irrel (lookup : Oid → Commit) :
    ∀ (f1 f2 : Nat) (l : List Commit), l.length ≤ f1 → l.length ≤ f2 →
      dropWalkFuel lookup f1 l = dropWalkFuel lookup f2 l := by
  intro f1
  induction f1 with
  | zero =>
    intro f2 l h1 h2
    have hl : l = [] := List.length_eq_zero.mp (Nat.le_zero.mp h1)
    subst hl
    cases f2 <;> rfl
  | succ n ih =>
    intro f2 l h1 h2
    cases l with
    | nil => cases f2 <;> rfl
    | cons c rest =>
      cases f2 with
      | zero => simp at h2
      | succ m =>
        rw [dropWalkFuel, dropWalkFuel]
        by_cases hp : c.parent_oids.length = 1
        · rw [if_pos hp, if_pos hp]
          cases hf : (c :: rest).findIdx?
              (fun k => k.tree_oid == (lookup (c.parent_oids.headD 0)).tree_oid) with
          | none => rfl
          | some i =>
            have hd1 : (rest.drop i).length ≤ n := by
              simp only [List.length_cons] at h1
              simp only [List.length_drop]
              omega
            have hd2 : (rest.drop i).length ≤ m := by
              simp only [List.length_cons] at h2
              simp only [List.length_drop]
              omega
            exact ih m (rest.drop i) hd1 hd2
        · rw [if_neg hp, if_neg hp]

/-- The walk `dropWalk` satisfies the loop equation of the source verbatim. -/
theorem dropWalk_cons (lookup : Oid → Commit) (c : Commit) (rest : List Commit) :
    dropWalk lookup (c :: rest) =
      (if c.parent_oids.length = 1 then
        match (c :: rest).findIdx?
            (fun k => k.tree_oid == (lookup (c.parent_oids.headD 0)).tree_oid) with
        | some i => dropWalk lookup (rest.drop i)
        | none => c :: rest
      else c :: rest) := by
  unfold dropWalk
  rw [List.length_cons, dropWalkFuel]
  by_cases hp : c.parent_oids.length = 1
  · rw [if_pos hp, if_pos hp]
    cases hf : (c :: rest).findIdx?
        (fun k => k.tree_oid == (lookup (c.parent_oids.headD 0)).tree_oid) with
    | none => rfl
    | some i =>
      exact dropWalkFuel_irrel lookup rest.length (rest.drop i).length (rest.drop i)
        (by simp only [List.length_drop]; omega) (Nat.le_refl _)
  · rw [if_neg hp, if_neg hp]

/-- The `saw_index` loop of `validate_todos`. -/
def index_tail_check (saw_index : Bool) : List CommitStep → Except ValidationError Unit
  | [] => .ok ()
  | step :: rest =>
    if step.action = CommitAction.index then index_tail_check true rest
    else if saw_index then .error .indexOrder
    else index_tail_check saw_index rest

/-- Source `validate_todos(old, new)`: raise if the new todo list is malformed
compared to the original todo list. -/
def validate_todos (lookup : Oid → Commit) (old new : List CommitStep) :
    Except ValidationError Unit :=
  if (old.map (fun o => o.commit.oid)).toFinset.card ≠ old.length then
    .error .duplicateOriginal
  else if (new.map (fun n => n.commit.oid)).toFinset.card ≠ new.length then
    .error .duplicateCommit
  else if (new.map (fun n => n.commit.oid)).toFinset \
      (old.map (fun o => o.commit.oid)).toFinset ≠ ∅ then
    .error .foreignCommit
  else
    match dropWalk lookup (droppedOf old new) with
    | c :: _ => .error (.dropNonempty c.oid)
    | [] => index_tail_check false new

/-- Python `bytes.split(maxsplit=1)`: split on runs of whitespace, at most
once; leading whitespace is dropped; an empty remainder yields a single
element. -/
def pySplitMax1 (s : Str) : List Str :=
  let s1 := s.dropWhile isPyWS
  if s1.isEmpty then []
  else
    let tok := s1.takeWhile (fun c => !isPyWS c)
    let rest := (s1.dropWhile (fun c => !isPyWS c)).dropWhile isPyWS
    if rest.isEmpty then [tok] else [tok, rest]

theorem length_dropWhile_le' (p : Char → Bool) (l : Str) :
    (l.dropWhile p).length ≤ l.length := by
  induction l with
  | nil => simp [List.dropWhile]
  | cons c t ih =>
    simp only [List.dropWhile]
    cases p c
    · simp
    · simp
      omega

theorem dropWhile_head_false {p : Char → Bool} {l t : Str} {c : Char}
    (h : l.dropWhile p = c :: t) : p c = false := by
  induction l with
  | nil => simp [List.dropWhile] at h
  | cons a l' ih =>
    simp only [List.dropWhile] at h
    cases hp : p a with
    | true => simp [hp] at h; exact ih h
    | false => simp [hp] at h; rw [← h.1]; exact hp

theorem pySplitMax1_two {s t r : Str} (h : pySplitMax1 s = [t, r]) :
    r.length < s.length := by
  unfold pySplitMax1 at h
  by_cases h1 : (s.dropWhile isPyWS).isEmpty
  · simp [h1] at h
  · by_cases h2 : (((s.dropWhile isPyWS).dropWhile (fun c => !isPyWS c)).dropWhile isPyWS).isEmpty
    · simp [h1, h2] at h
    · simp only [h1, h2, Bool.false_eq_true, if_false, List.cons.injEq, and_true] at h
      obtain ⟨-, hr⟩ := h
      subst hr
      obtain ⟨c, s1', hs1⟩ : ∃ c s1', s.dropWhile isPyWS = c :: s1' := by
        cases hd : s.dropWhile isPyWS with
        | nil => rw [hd] at h1; simp at h1
        | cons c s1' => exact ⟨c, s1', rfl⟩
      have hc : isPyWS c = false := dropWhile_head_false hs1
      have l1 : ((s.dropWhile isPyWS).dropWhile (fun c => !isPyWS c)).length ≤ s1'.length := by
        rw [hs1]
        simp only [List.dropWhile, hc]
        exact length_dropWhile_le' _ _
      have l2 := length_dropWhile_le' isPyWS ((s.dropWhile isPyWS).dropWhile (fun c => !isPyWS c))
      have l3 := length_dropWhile_le' isPyWS s
      rw [hs1] at l3
      simp at l3
      omega

/-- The prefix-stripping `while` loop of `add_autosquash_step`; the unchecked
`[1]` index is the `IndexError` branch. -/
def stripAutosquash (needle : Str) : Except String Str :=
  if ("fixup! ".toList.isPrefixOf needle) ∨ ("squash! ".toList.isPrefixOf needle) then
    match h : pySplitMax1 needle with
    | [_, rest] => stripAutosquash rest
    | _ => .error "IndexError: list index out of range"
  else .ok needle
termination_by needle.length
decreasing_by exact pySplitMax1_two h

/-- Append `new_step` to the first sequence satisfying `p`, or report that
none does. -/
def appendToFirst (p : List CommitStep → Bool) (new_step : CommitStep) :
    List (List CommitStep) → Option (List (List CommitStep))
  | [] => none
  | seq :: rest =>
    if p seq then some ((seq ++ [new_step]) :: rest)
    else (appendToFirst p new_step rest).map (fun l => seq :: l)

/-- Source `add_autosquash_step(step, picks)`.  `resolve` models
`repo.get_commit` with its `ValueError`/`MissingObject` failures swallowed
(`none`). -/
def add_autosquash_step (resolve : Str → Option Commit) (step : CommitStep)
    (picks : List (List CommitStep)) : Except String (List (List CommitStep)) := do
  let summary := step.commit.summary
  let needle ← stripAutosquash summary
  if needle ≠ summary then
    let new_step :=
      if "fixup!".toList.isPrefixOf summary
      then CommitStep.init .fixup step.commit
      else CommitStep.init .squash step.commit
    match appendToFirst (fun seq =>
        match seq with
        | s0 :: _ => needle.isPrefixOf s0.commit.summary
        | [] => false) new_step picks with
    | some picks2 => return picks2
    | none =>
      match resolve needle with
      | some target =>
        match appendToFirst (fun seq => seq.any (fun s => s.commit == target))
            new_step picks with
        | some picks2 => return picks2
        | none => return picks ++ [[step]]
      | none => return picks ++ [[step]]
  else
    return picks ++ [[step]]

/-- Source `autosquash_todos(todos)`: fold every step into `picks` and flatten. -/
def autosquash_todos (resolve : Str → Option Commit) (todos : List CommitStep) :
    Except String (List CommitStep) := do
  let picks ← todos.foldlM (fun picks step => add_autosquash_step resolve step picks) []
  return picks.flatten

/-- Modelled from the spec: the backing store collaborator — the content hash
behind the commit-construction primitive, the three-way rebase primitive
(optionally pinned to a known tree), the external message-editing and
commit-splitting collaborators, and the default authorship identity. -/
structure Store where
  hash : Oid → List Oid → Str → Nat → Oid
  rebase : Commit → Option Commit → Option Oid → Commit
  edit_commit_message : Commit → Commit
  cut_commit : Commit → Commit
  default_author : Nat

/-- Modelled from the spec: `Commit.update` — derive a new commit from a base
with selected fields overridden; the identity is recomputed from the content. -/
def Store.update (st : Store) (c : Commit) (tree : Option Oid)
    (message : Option Str) (author : Option Nat) : Commit :=
  let t := tree.getD c.tree_oid
  let m := message.getD c.message
  let a := author.getD c.author
  ⟨st.hash t c.parent_oids m a, t, c.parent_oids, m, a⟩

/-- Observable effects of one executed step of `apply_todos`: the déjà-vu
flag used for its rebase, the `update_head` calls of its extra steps
(ref name and the commit it was repointed to), and its progress line. -/
structure StepRecord where
  dejaVu : Bool
  updates : List (Str × Oid)
  progress : Option (CommitAction × Oid × Str)
deriving DecidableEq

/-- Outcome of one iteration of the `apply_todos` loop: either the loop stops
(an exception, or the `index` break, carrying the surviving tip) or it
continues with a new tip and grown touched sets. -/
inductive StepOutcome where
  | halt (result : Except String (Option Commit)) (rcd : StepRecord)
  | cont (current : Commit) (applied_old applied_new : Finset Oid) (rcd : StepRecord)

/-- One iteration of the `apply_todos` loop body, pairing the original step
`known_state` with the edited step `step`.  The `else: raise` for an
unhandled commit action and for an unhandled significant extra step are
unreachable here because the action enumerations are closed. -/
def processStep (st : Store) (reauthor : Bool) (current : Option Commit)
    (applied_old applied_new : Finset Oid) (known_state step : CommitStep) :
    StepOutcome :=
  let applied_old' := insert known_state.commit.oid applied_old
  let applied_new' := insert step.commit.oid applied_new
  let deja_vu := decide (applied_new' = applied_old')
  let tree_to_keep := if deja_vu then some known_state.commit.tree_oid else none
  let rebased := st.update (st.rebase step.commit current tree_to_keep)
    none (some step.message) none
  if step.action = .index then
    .halt (.ok current) ⟨deja_vu, [], none⟩
  else
    let acted : Except String Commit :=
      match step.action with
      | .pick => .ok rebased
      | .fixup =>
        match current with
        | none => .error "Cannot apply fixup as first commit"
        | some cur => .ok (st.update cur (some rebased.tree_oid) none none)
      | .reword => .ok (st.edit_commit_message rebased)
      | .squash =>
        match current with
        | none => .error "Cannot apply squash as first commit"
        | some cur =>
          let fused := cur.message ++ '\n' :: '\n' :: rebased.message
          .ok (st.edit_commit_message
            (st.update cur (some rebased.tree_oid) (some fused) none))
      | .cut => .ok (st.cut_commit rebased)
      | .index => .ok rebased
    match acted with
    | .error e => .halt (.error e) ⟨deja_vu, [], none⟩
    | .ok cur1 =>
      let cur2 := if reauthor
        then st.update cur1 none none (some st.default_author)
        else cur1
      let ups := step.significant_extrasteps.map (fun ex => (ex.operand, cur2.oid))
      .cont cur2 applied_old' applied_new'
        ⟨deja_vu, ups, some (step.action, cur2.oid, cur2.summary)⟩

/-- The `for known_state, step in zip(...)` loop of `apply_todos`, with the
touched sets passed explicitly. -/
def applyLoop (st : Store) (reauthor : Bool) :
    Option Commit → Finset Oid → Finset Oid →
    List (CommitStep × CommitStep) →
    Except String (Option Commit) × List StepRecord
  | current, _, _, [] => (.ok current, [])
  | current, applied_old, applied_new, (known_state, step) :: rest =>
    match processStep st reauthor current applied_old applied_new known_state step with
    | .halt r rcd => (r, [rcd])
    | .cont cur oldS newS rcd =>
      let res := applyLoop st reauthor (some cur) oldS newS rest
      (res.1, rcd :: res.2)

instance instDecidableEqExceptOf {ε α : Type} [DecidableEq ε] [DecidableEq α] :
    DecidableEq (Except ε α) := fun x y =>
  match x, y with
  | .ok a, .ok b =>
    if h : a = b then isTrue (by rw [h]) else isFalse (by intro he; cases he; exact h rfl)
  | .error a, .error b =>
    if h : a = b then isTrue (by rw [h]) else isFalse (by intro he; cases he; exact h rfl)
  | .ok _, .error _ => isFalse (by intro he; cases he)
  | .error _, .ok _ => isFalse (by intro he; cases he)

/-- The result of `apply_todos`: the final tip (or the raised error) together
with the per-step effect records. -/
structure ExecResult where
  final : Except String Commit
  records : List StepRecord
deriving DecidableEq

/-- Source `apply_todos(repo, current, todos_original, todos_edited, reauthor)`. -/
def apply_todos (st : Store) (current : Option Commit)
    (todos_original todos_edited : List CommitStep) (reauthor : Bool) :
    ExecResult :=
  let res := applyLoop st reauthor current ∅ ∅ (todos_original.zip todos_edited)
  match res.1 with
  | .error e => ⟨.error e, res.2⟩
  | .ok none => ⟨.error "No commits introduced on top of root commit", res.2⟩
  | .ok (some c) => ⟨.ok c, res.2⟩

/-- All `update_head` calls performed by an execution, in order. -/
def ExecResult.ref_updates (r : ExecResult) : List (Str × Oid) :=
  (r.records.map StepRecord.updates).flatten

/-- All progress lines printed by an execution, in order. -/
def ExecResult.progress_lines (r : ExecResult) : List (CommitAction × Oid × Str) :=
  r.records.filterMap StepRecord.progress

/-- Split a byte string at every `'\n'`, keeping empty segments (the segment
list is always nonempty). -/
def splitNL : Str → List Str
  | [] => [[]]
  | c :: rest =>
    if c = '\n' then [] :: splitNL rest
    else
      match splitNL rest with
      | [] => [[c]]
      | h :: t => (c :: h) :: t

/-- Inverse of `splitNL`: interpose `'\n'` between the segments. -/
def joinNL : List Str → Str
  | [] => []
  | [l] => l
  | l :: l2 :: rest => l ++ '\n' :: joinNL (l2 :: rest)

/-- Helper for Python `bytes.splitlines()`: split on the line boundaries
`"\r\n"`, `"\r"` and `"\n"`, keeping empty segments (the segment list is
never empty). -/
def pySplitlinesAux : Str → List Str
  | [] => [[]]
  | [c] =>
    if c = '\n' ∨ c = '\r' then [[], []]
    else [[c]]
  | c :: c2 :: rest =>
    if c = '\n' then [] :: pySplitlinesAux (c2 :: rest)
    else if c = '\r' then
      if c2 = '\n' then [] :: pySplitlinesAux rest
      else [] :: pySplitlinesAux (c2 :: rest)
    else
      match pySplitlinesAux (c2 :: rest) with
      | [] => [[c]]
      | h :: t => (c :: h) :: t

/-- Python `bytes.splitlines()`: split on `"\r\n"`, `"\r"` and `"\n"`,
without the empty segment a trailing boundary would produce. -/
def pySplitlines (s : Str) : List Str :=
  let l := pySplitlinesAux s
  if l.getLast? = some [] then l.dropLast else l

/-- The serialized entries of `edit_todos_msgedit`: one block per step (header
line followed by the commit's message), then one block per extra step. -/
def msgeditEntries (todos : List CommitStep) : List Str :=
  todos.flatMap (fun step =>
    (step.toStr ++ '\n' :: step.commit.message)
      :: step.extrasteps.map CommitlessStep.to_bytes)

/-- The serialized entries of `edit_todos_linewise`: one line per step
(header and summary), then one line per extra step. -/
def linewiseEntries (todos : List CommitStep) : List Str :=
  todos.flatMap (fun step =>
    (step.toStr ++ ' ' :: step.commit.summary)
      :: step.extrasteps.map CommitlessStep.to_bytes)

/-- Group the lines of the editor response as `re.split(rb"^\+\+ ", ...)`
does: the first group holds the lines before the first `"++ "` marker, and
every further group starts with the remainder of its marker line. -/
def blocksFromLines : List Str → List (List Str)
  | [] => [[]]
  | l :: rest =>
    match blocksFromLines rest with
    | [] => [[]]
    | g :: gs =>
      if "++ ".toList.isPrefixOf l then [] :: (l.drop 3 :: g) :: gs
      else (l :: g) :: gs

/-- Rebuild the text of each group: the newline that preceded the next
marker belongs to the group before it, so every non-final group gets a
trailing `'\n'`. -/
def finalizeBlocks : List (List Str) → List Str
  | [] => []
  | [g] => [joinNL g]
  | g :: g2 :: gs => (joinNL g ++ ['\n']) :: finalizeBlocks (g2 :: gs)

/-- The split `re.split(rb"^\+\+ ", response, flags=re.M)[1:]`: the delimiter-separated
blocks of the response, without the text before the first delimiter. -/
def blocksOf (response : Str) : List Str :=
  match blocksFromLines (splitNL response) with
  | [] => []
  | _ :: gs => finalizeBlocks gs

/-- The split `full.split(b"\n", maxsplit=1)` as used on a block: the header line and
the rest; `none` if the block holds no newline (the unpacking raises then). -/
def splitFirstNL (full : Str) : Option (Str × Str) :=
  match full.dropWhile (fun c => c ≠ '\n') with
  | [] => none
  | _ :: rest => some (full.takeWhile (fun c => c ≠ '\n'), rest)

/-- Parsing of one block of the `edit_todos_msgedit` response: the first line
is a step header, and for a commit step the remainder (stripped, with a
newline restored) becomes the step's new message. -/
def parseBlock (resolve : Str → Except String Commit) (full : Str) :
    Except String PolyStep := do
  match splitFirstNL full with
  | none => .error "ValueError: not enough values to unpack"
  | some (cmd, message) =>
    let polystep ← parse_step resolve (pyStrip cmd)
    match polystep with
    | .inl step => return .inl { step with message := pyStrip message ++ ['\n'] }
    | .inr step => return .inr step

/-- The `for full in ...` parsing loop of `edit_todos_msgedit`: parse each
block in order, propagating the first failure. -/
def parseBlocks (resolve : Str → Except String Commit) :
    List Str → Except String (List PolyStep)
  | [] => .ok []
  | full :: rest => do
    let p ← parseBlock resolve full
    let ps ← parseBlocks resolve rest
    return p :: ps

/-- Source `edit_todos_msgedit(repo, todos, presentation_order_head_on_top)`.
`editor` models the external interactive editor round-trip (`run_editor`
with its instructional comments, which are ignored on parse). -/
def edit_todos_msgedit (editor : Str → Str) (resolve : Str → Except String Commit)
    (todos : List CommitStep) (presentation_order_head_on_top : Bool) :
    Except String (List PolyStep) :=
  let serialized_todos := msgeditEntries todos
  let serialized_todos :=
    if presentation_order_head_on_top then serialized_todos.reverse
    else serialized_todos
  let todos_text := (serialized_todos.map (fun x => "++ ".toList ++ x ++ ['\n'])).flatten
  let response := editor todos_text
  parseBlocks resolve (blocksOf response)

/-- The parsing loop of `edit_todos_linewise`: whitespace-only lines are
skipped, every other line is stripped and parsed as one step. -/
def parseLines (resolve : Str → Except String Commit) :
    List Str → Except String (List PolyStep)
  | [] => .ok []
  | line :: rest =>
    if pyIsSpace line then parseLines resolve rest
    else do
      let p ← parse_step resolve (pyStrip line)
      let ps ← parseLines resolve rest
      return p :: ps

/-- Source `edit_todos_linewise(repo, todos, presentation_order_head_on_top)`.
`editor` models the external sequence-editor round-trip. -/
def edit_todos_linewise (editor : Str → Str) (resolve : Str → Except String Commit)
    (todos : List CommitStep) (presentation_order_head_on_top : Bool) :
    Except String (List PolyStep) :=
  let serialized_todos := linewiseEntries todos
  let serialized_todos :=
    if presentation_order_head_on_top then serialized_todos.reverse
    else serialized_todos
  let todos_text := (serialized_todos.map (fun x => x ++ ['\n'])).flatten
  let response := editor todos_text
  parseLines resolve (pySplitlines response)

/-- The re-association loop of `edit_todos`: commit-less steps attach to the
extra-step list of the nearest preceding commit step; the accumulator is kept
reversed. -/
def associateSteps (acc : List CommitStep) : List PolyStep → Except String (List CommitStep)
  | [] => .ok acc.reverse
  | (.inl step) :: rest => associateSteps (step :: acc) rest
  | (.inr step) :: rest =>
    match acc with
    | [] => .error "Actions can not be applied to the base commit"
    | top :: others =>
      associateSteps ({ top with extrasteps := top.extrasteps ++ [step] } :: others) rest

/-- User-facing text of each validation failure. -/
def ValidationError.describe : ValidationError → String
  | .duplicateOriginal => "Unexpected duplicate original commit!"
  | .duplicateCommit => "Unexpected duplicate commit found in todos"
  | .foreignCommit => "Unexpected commits not referenced in original TODO list"
  | .dropNonempty _ => "Can't drop nonempty commit"
  | .indexOrder => "'index' actions follow all non-index todo items"

/-- Source `edit_todos(repo, todos, msgedit)`: serialize through the selected mode,
undo the head-on-top presentation reversal, re-associate commit-less steps
and validate against the original plan.  `head_on_top` models the
`sequence.presentation-order-head-on-top` boolean configuration lookup. -/
def edit_todos (editor : Str → Str) (resolve : Str → Except String Commit)
    (lookup : Oid → Commit) (todos : List CommitStep) (msgedit : Bool)
    (head_on_top : Bool) : Except String (List CommitStep) := do
  let polymorphic_steps ←
    if msgedit then edit_todos_msgedit editor resolve todos head_on_top
    else edit_todos_linewise editor resolve todos head_on_top
  let polymorphic_steps :=
    if head_on_top then polymorphic_steps.reverse else polymorphic_steps
  let result ← associateSteps [] polymorphic_steps
  match validate_todos lookup todos result with
  | .error e => .error e.describe
  | .ok () => return result

/-! ## Theorems -/

/-- The function `parse_action` searches the two enumerations exactly like a single search
of `allActions`. -/
theorem parse_action_eq_find (instr : Str) :
    parse_action instr =
      match allActions.find? (fun a => instr.isPrefixOf a.str) with
      | some a => .ok a
      | none => .error ("Unrecognized action. Expected one of"
          ++ " pick, fixup, squash, reword, cut, index, update-ref or #") := by
  have hcomp1 : ((fun a : Action => instr.isPrefixOf a.str) ∘ Sum.inl)
      = (fun a : CommitAction => instr.isPrefixOf a.str) := rfl
  have hcomp2 : ((fun a : Action => instr.isPrefixOf a.str) ∘ Sum.inr)
      = (fun a : CommitlessAction => instr.isPrefixOf a.str) := rfl
  unfold parse_action allActions
  rw [List.find?_append, List.find?_map, List.find?_map, hcomp1, hcomp2]
  cases h1 : CommitAction.all.find? (fun a => instr.isPrefixOf a.str) with
  | some a => simp [h1, Option.or]
  | none =>
    cases h2 : CommitlessAction.all.find? (fun a => instr.isPrefixOf a.str) with
    | some a => simp [h1, h2, Option.or]
    | none => simp [h1, h2, Option.or]

/-- C7: for every input string, `parse_action` is deterministic and returns
the first action — scanning the commit-bearing actions in declared order,
then the commit-less actions in declared order — whose canonical name starts
with the input string, and it raises the "unrecognized action" error listing
the valid names if and only if no canonical name starts with the input. -/
theorem c7_parse_action_first_match (instr : Str) :
    (∀ a : Action, parse_action instr = .ok a ↔
      instr.isPrefixOf (Action.str a) = true ∧
      ∃ l1 l2 : List Action, allActions = l1 ++ a :: l2 ∧
        ∀ b ∈ l1, instr.isPrefixOf (Action.str b) = false) ∧
    (parse_action instr = .error ("Unrecognized action. Expected one of"
        ++ " pick, fixup, squash, reword, cut, index, update-ref or #") ↔
      ∀ a ∈ allActions, instr.isPrefixOf (Action.str a) = false) := by
  rw [parse_action_eq_find]
  constructor
  · intro a
    cases h : allActions.find? (fun a => instr.isPrefixOf a.str) with
    | some b =>
      rw [List.find?_eq_some] at h
      simp only [Bool.not_eq_true'] at h
      constructor
      · intro he
        cases he
        obtain ⟨hp, as, bs, hdec, hall⟩ := h
        exact ⟨hp, as, bs, hdec, hall⟩
      · rintro ⟨hp, l1, l2, hdec, hall⟩
        obtain ⟨hpb, as, bs, hdec', hall'⟩ := h
        have hab : b = a := by
          have h1 : allActions.find? (fun a => instr.isPrefixOf a.str) = some a := by
            rw [List.find?_eq_some]
            simp only [Bool.not_eq_true']
            exact ⟨hp, l1, l2, hdec, hall⟩
          have h2 : allActions.find? (fun a => instr.isPrefixOf a.str) = some b := by
            rw [List.find?_eq_some]
            simp only [Bool.not_eq_true']
            exact ⟨hpb, as, bs, hdec', hall'⟩
          rw [h1] at h2
          exact (Option.some_inj.mp h2).symm
        simp [hab]
    | none =>
      rw [List.find?_eq_none] at h
      constructor
      · intro he
        cases he
      · rintro ⟨hp, l1, l2, hdec, -⟩
        have := h a (by rw [hdec]; simp)
        simp [hp] at this
  · cases h : allActions.find? (fun a => instr.isPrefixOf a.str) with
    | some b =>
      have hb := List.find?_some h
      have hmem := List.mem_of_find?_eq_some h
      constructor
      · intro he
        cases he
      · intro hall
        rw [hall b hmem] at hb
        cases hb
    | none =>
      rw [List.find?_eq_none] at h
      constructor
      · intro _ a ha
        have := h a ha
        rwa [Bool.not_eq_true] at this
      · intro _
        rfl

/-- A list of identities is duplicate-free exactly when its set has as many
members as the list (the `len(set(..)) == len(..)` checks of the source). -/
theorem toFinset_card_eq_length_iff (l : List Oid) :
    l.toFinset.card = l.length ↔ l.Nodup := by
  rw [List.card_toFinset]
  constructor
  · intro h
    have hd := (List.dedup_sublist l).eq_of_length h
    rw [← hd]
    exact l.nodup_dedup
  · intro h
    rw [h.dedup]

/-- An accepted edited plan passed every check of `validate_todos`: no
duplicates, no foreign commits, an emptied drop walk and a well-placed index
tail. -/
theorem validate_todos_ok (lookup : Oid → Commit) (old new : List CommitStep)
    (h : validate_todos lookup old new = .ok ()) :
    (new.map (fun n => n.commit.oid)).Nodup ∧
    (new.map (fun n => n.commit.oid)).toFinset ⊆
      (old.map (fun o => o.commit.oid)).toFinset ∧
    dropWalk lookup (droppedOf old new) = [] ∧
    index_tail_check false new = .ok () := by
  unfold validate_todos at h
  split at h
  · exact Except.noConfusion h
  · split at h
    · exact Except.noConfusion h
    · split at h
      · exact Except.noConfusion h
      · split at h
        · exact Except.noConfusion h
        · rename_i hA hB hC hx heq
          refine ⟨?_, ?_, heq, h⟩
          · exact (toFinset_card_eq_length_iff _).mp
              (by rw [List.length_map]; exact not_not.mp hB)
          · exact Finset.sdiff_eq_empty_iff_subset.mp (not_not.mp hC)

/-- The index-tail loop can only ever raise the index-ordering error. -/
theorem index_tail_check_error (saw : Bool) (l : List CommitStep)
    (e : ValidationError) (h : index_tail_check saw l = .error e) :
    e = ValidationError.indexOrder := by
  induction l generalizing saw with
  | nil => exact Except.noConfusion h
  | cons s rest ih =>
    rw [index_tail_check] at h
    split at h
    · exact ih _ h
    · split at h
      · cases h
        rfl
      · exact ih _ h

/-- C2: for plans passing the duplicate and foreign-commit checks,
`validate_todos` raises the "can't drop nonempty commit" error exactly when
entries remain after the walk of the dropped list, and the reported commit is
then the head of the remainder. -/
theorem c2_drop_walk_characterizes_rejection (lookup : Oid → Commit)
    (old new : List CommitStep)
    (hOld : (old.map (fun o => o.commit.oid)).toFinset.card = old.length)
    (hNew : (new.map (fun n => n.commit.oid)).toFinset.card = new.length)
    (hSub : (new.map (fun n => n.commit.oid)).toFinset ⊆
      (old.map (fun o => o.commit.oid)).toFinset) :
    ((∃ x, validate_todos lookup old new = .error (.dropNonempty x)) ↔
      dropWalk lookup (droppedOf old new) ≠ []) ∧
    (∀ c cs, dropWalk lookup (droppedOf old new) = c :: cs →
      validate_todos lookup old new = .error (.dropNonempty c.oid)) := by
  have hv : validate_todos lookup old new =
      match dropWalk lookup (droppedOf old new) with
      | c :: _ => .error (.dropNonempty c.oid)
      | [] => index_tail_check false new := by
    unfold validate_todos
    rw [if_neg (by simp [hOld]), if_neg (by simp [hNew]),
      if_neg (by simp [Finset.sdiff_eq_empty_iff_subset.mpr hSub])]
  constructor
  · constructor
    · rintro ⟨x, hx⟩ hnil
      rw [hv, hnil] at hx
      exact absurd (index_tail_check_error false new _ hx) (by simp)
    · intro hne
      cases hw : dropWalk lookup (droppedOf old new) with
      | nil => exact absurd hw hne
      | cons c cs =>
        refine ⟨c.oid, ?_⟩
        rw [hv, hw]
  · intro c cs hc
    rw [hv, hc]

/-- Concrete instance of C2: dropping only the first commit of a two-commit
bubble leaves a nonempty walk remainder, and validation reports that
commit. -/
theorem c2_witness :
    validate_todos
      (fun o => if o = 0 then Commit.mk 0 99 [] "root".toList 7
        else if o = 1 then Commit.mk 1 100 [0] "commit one".toList 7
        else Commit.mk 2 101 [1] "commit two".toList 7)
      [CommitStep.init .pick (Commit.mk 1 100 [0] "commit one".toList 7),
       CommitStep.init .pick (Commit.mk 2 101 [1] "commit two".toList 7)]
      [CommitStep.init .pick (Commit.mk 1 100 [0] "commit one".toList 7)] =
      .error (.dropNonempty 2) := by
  refine (c2_drop_walk_characterizes_rejection _ _ _
    (by decide) (by decide) (by decide)).2
    (Commit.mk 2 101 [1] "commit two".toList 7) [] ?_
  decide

/-- C3: `validate_todos` raises a validation error whenever the edited plan
repeats a commit identity across two steps, and whenever it contains a step
whose commit identity is absent from the original plan. -/
theorem c3_validate_rejects_dup_foreign (lookup : Oid → Commit)
    (old new : List CommitStep)
    (h : ¬ (new.map (fun n => n.commit.oid)).Nodup ∨
      ∃ s ∈ new, s.commit.oid ∉ old.map (fun o => o.commit.oid)) :
    validate_todos lookup old new ≠ .ok () := by
  intro hok
  obtain ⟨hnodup, hsub, -, -⟩ := validate_todos_ok lookup old new hok
  rcases h with h | ⟨s, hs, hforeign⟩
  · exact h hnodup
  · have hmem : s.commit.oid ∈ (new.map (fun n => n.commit.oid)).toFinset := by
      rw [List.mem_toFinset]
      exact List.mem_map_of_mem _ hs
    have := hsub hmem
    rw [List.mem_toFinset] at this
    exact hforeign this

/-- Concrete instance of C3: repeating a commit in the edited plan is
rejected. -/
theorem c3_witness :
    validate_todos (fun _ => Commit.mk 1 100 [0] "commit one".toList 7)
      [CommitStep.init .pick (Commit.mk 1 100 [0] "commit one".toList 7)]
      [CommitStep.init .pick (Commit.mk 1 100 [0] "commit one".toList 7),
       CommitStep.init .pick (Commit.mk 1 100 [0] "commit one".toList 7)] ≠
      .ok () :=
  c3_validate_rejects_dup_foreign _ _ _ (Or.inl (by decide))

/-- The `saw_index = true` tail of the index loop accepts exactly the
all-index lists. -/
theorem index_tail_check_true_ok (l : List CommitStep) :
    index_tail_check true l = .ok () ↔ ∀ s ∈ l, s.action = CommitAction.index := by
  induction l with
  | nil => simp [index_tail_check]
  | cons s rest ih =>
    by_cases hs : s.action = CommitAction.index
    · simp [index_tail_check, hs, ih]
    · simp [index_tail_check, hs]

/-- The index loop accepts exactly the plans that split into a non-index
prefix followed by an all-index suffix. -/
theorem index_tail_check_false_ok (l : List CommitStep) :
    index_tail_check false l = .ok () ↔
      ∃ l1 l2, l = l1 ++ l2 ∧ (∀ s ∈ l1, s.action ≠ CommitAction.index) ∧
        (∀ s ∈ l2, s.action = CommitAction.index) := by
  induction l with
  | nil =>
    constructor
    · intro _
      exact ⟨[], [], rfl, by simp, by simp⟩
    · intro _
      rfl
  | cons s rest ih =>
    by_cases hs : s.action = CommitAction.index
    · rw [index_tail_check, if_pos hs]
      rw [index_tail_check_true_ok]
      constructor
      · intro h
        refine ⟨[], s :: rest, rfl, by simp, ?_⟩
        intro x hx
        rcases List.mem_cons.mp hx with hx | hx
        · rw [hx]; exact hs
        · exact h x hx
      · rintro ⟨l1, l2, hdec, h1, h2⟩
        intro x hx
        cases l1 with
        | nil =>
          simp at hdec
          exact h2 x (by rw [← hdec]; exact List.mem_cons_of_mem _ hx)
        | cons a t =>
          have ha : a = s := by
            have := congrArg (fun l => l.headD s) hdec
            simpa using this.symm
          exact absurd hs (ha ▸ h1 a (by simp))
    · rw [index_tail_check, if_neg hs, if_neg (by simp)]
      rw [ih]
      constructor
      · rintro ⟨l1, l2, hdec, h1, h2⟩
        refine ⟨s :: l1, l2, by rw [hdec, List.cons_append], ?_, h2⟩
        intro x hx
        rcases List.mem_cons.mp hx with hx | hx
        · rw [hx]; exact hs
        · exact h1 x hx
      · rintro ⟨l1, l2, hdec, h1, h2⟩
        cases l1 with
        | nil =>
          exact absurd (h2 s (by rw [← List.nil_append l2, ← hdec]; simp)) hs
        | cons a t =>
          have ha : a = s := by
            have := congrArg (fun l => l.headD s) hdec
            simpa using this.symm
          have ht : rest = t ++ l2 := by
            have := congrArg List.tail hdec
            simpa using this
          exact ⟨t, l2, ht, fun x hx => h1 x (List.mem_cons_of_mem _ hx), h2⟩

/-- C6: `validate_todos` rejects every edited plan in which a step with a
non-index action appears after a step with the index action; equivalently,
every accepted plan has its index steps forming a trailing run (possibly
empty). -/
theorem c6_index_trailing_run (lookup : Oid → Commit) (old new : List CommitStep) :
    ((∃ i j : Nat, ∃ si sj : CommitStep,
        i < j ∧ new[i]? = some si ∧ si.action = CommitAction.index ∧
        new[j]? = some sj ∧ sj.action ≠ CommitAction.index) →
      validate_todos lookup old new ≠ .ok ()) ∧
    (validate_todos lookup old new = .ok () →
      ∃ l1 l2, new = l1 ++ l2 ∧ (∀ s ∈ l1, s.action ≠ CommitAction.index) ∧
        (∀ s ∈ l2, s.action = CommitAction.index)) := by
  have hpart2 : validate_todos lookup old new = .ok () →
      ∃ l1 l2, new = l1 ++ l2 ∧ (∀ s ∈ l1, s.action ≠ CommitAction.index) ∧
        (∀ s ∈ l2, s.action = CommitAction.index) := by
    intro hok
    obtain ⟨-, -, -, hidx⟩ := validate_todos_ok lookup old new hok
    exact (index_tail_check_false_ok new).mp hidx
  refine ⟨?_, hpart2⟩
  rintro ⟨i, j, si, sj, hij, hgi, hsi, hgj, hsj⟩ hok
  obtain ⟨l1, l2, hdec, h1, h2⟩ := hpart2 hok
  subst hdec
  by_cases hi : i < l1.length
  · rw [List.getElem?_append_left hi] at hgi
    exact h1 si (List.getElem?_mem hgi) hsi
  · have hj : l1.length ≤ j := by omega
    rw [List.getElem?_append_right hj] at hgj
    exact hsj (h2 sj (List.getElem?_mem hgj))

/-- Concrete instance of C6: an index step followed by a pick is rejected. -/
theorem c6_witness :
    validate_todos (fun _ => Commit.mk 1 100 [0] "commit one".toList 7)
      [CommitStep.init .pick (Commit.mk 1 100 [0] "commit one".toList 7),
       CommitStep.init .pick (Commit.mk 2 101 [1] "commit two".toList 7)]
      [CommitStep.init .index (Commit.mk 1 100 [0] "commit one".toList 7),
       CommitStep.init .pick (Commit.mk 2 101 [1] "commit two".toList 7)] ≠
      .ok () :=
  (c6_index_trailing_run _ _ _).1
    ⟨0, 1, CommitStep.init .index (Commit.mk 1 100 [0] "commit one".toList 7),
      CommitStep.init .pick (Commit.mk 2 101 [1] "commit two".toList 7),
      by decide, by decide, by decide, by decide, by decide⟩

/-- Counterexample to C5 as stated: a branch checked out in the main
worktree — hence absent from the spec-worded set of branches checked out in
worktrees other than the main one — still gets only an inert comment extra
step, because the source's checked-out set includes every record of the
listing. -/
theorem c5_counterexample :
    ("refs/heads/".toList.isPrefixOf "refs/heads/master".toList) = true ∧
    "refs/heads/master".toList ∉ outcheckedSpec
      [["worktree /main".toList, "branch refs/heads/master".toList]] ∧
    build_todos [Commit.mk 2 101 [1] "commit two".toList 7] none
      [((2 : Oid), "refs/heads/master".toList)]
      [["worktree /main".toList, "branch refs/heads/master".toList]] =
      .ok [CommitStep.mk CommitAction.pick (Commit.mk 2 101 [1] "commit two".toList 7)
        "commit two".toList
        [CommitlessStep.mk CommitlessAction.comment "refs/heads/master".toList]] :=
  ⟨by decide, by decide, by decide⟩

/-- C5 (amended): every step built by `build_todos` carries exactly one extra
step per ref pointing at its commit, in listing order: an actionable
`update-ref` step when the ref is a branch ref and the branch is not in the
set of branches checked out in any worktree of the listing — the main
worktree's included — and an inert comment step carrying the same ref name
otherwise; no other extra steps are attached. -/
theorem c5_build_todos_ref_extras (commits : List Commit)
    (index : Option Commit) (show_ref : List (Oid × Str))
    (worktree_records : List (List Str)) (outchecked : List Str)
    (steps : List CommitStep)
    (hout : outcheckedOf worktree_records = .ok outchecked)
    (hsteps : build_todos commits index show_ref worktree_records = .ok steps)
    (step : CommitStep) (hmem : step ∈ steps) :
    step.extrasteps =
      ((show_ref.filter (fun p => p.1 == step.commit.oid)).map (fun p => p.2)).map
        (fun ref =>
          if ("refs/heads/".toList.isPrefixOf ref) ∧ ref ∉ outchecked
          then ⟨CommitlessAction.updateRef, ref⟩
          else ⟨CommitlessAction.comment, ref⟩) := by
  unfold build_todos at hsteps
  rw [hout] at hsteps
  cases hsteps
  rw [List.mem_map] at hmem
  obtain ⟨s0, hs0, rfl⟩ := hmem
  have hempty : s0.extrasteps = [] := by
    rcases List.mem_append.mp hs0 with hl | hr
    · obtain ⟨c, -, rfl⟩ := List.mem_map.mp hl
      rfl
    · cases index with
      | none => exact absurd hr (by simp)
      | some c =>
        have : s0 = CommitStep.init .index c := by simpa using hr
        rw [this]
        rfl
  simp [hempty]

/-- Concrete instance of the amended C5: a branch ref pointing at the step's
commit and checked out in no listed worktree becomes exactly one `update-ref`
extra step. -/
theorem c5_witness :
    build_todos [Commit.mk 2 101 [1] "commit two".toList 7] none
      [((2 : Oid), "refs/heads/dev".toList)] [] =
      .ok [CommitStep.mk CommitAction.pick (Commit.mk 2 101 [1] "commit two".toList 7)
        "commit two".toList
        [CommitlessStep.mk CommitlessAction.updateRef "refs/heads/dev".toList]] ∧
    (CommitStep.mk CommitAction.pick (Commit.mk 2 101 [1] "commit two".toList 7)
        "commit two".toList
        [CommitlessStep.mk CommitlessAction.updateRef "refs/heads/dev".toList]).extrasteps =
      [CommitlessStep.mk CommitlessAction.updateRef "refs/heads/dev".toList] := by
  refine ⟨by decide, ?_⟩
  rw [c5_build_todos_ref_extras [Commit.mk 2 101 [1] "commit two".toList 7]
    none [((2 : Oid), "refs/heads/dev".toList)] [] []
    [CommitStep.mk CommitAction.pick (Commit.mk 2 101 [1] "commit two".toList 7)
      "commit two".toList
      [CommitlessStep.mk CommitlessAction.updateRef "refs/heads/dev".toList]]
    (by decide) (by decide) _ (by decide)]
  decide

/-- C4: at an execution step whose edited action is `fixup`: with a null
current tip the loop aborts with the fatal "cannot fixup as first commit"
error, performing no further work; otherwise the loop continues with a new
tip that keeps the current tip's message, authorship and parents and takes
only its tree from the rebased commit (the reauthor flag being absent). -/
theorem c4_fixup_frame (st : Store) (current : Option Commit)
    (applied_old applied_new : Finset Oid) (known_state step : CommitStep)
    (rest : List (CommitStep × CommitStep))
    (hact : step.action = CommitAction.fixup) :
    (current = none →
      applyLoop st false current applied_old applied_new
          ((known_state, step) :: rest) =
        (.error "Cannot apply fixup as first commit",
          [⟨decide (insert step.commit.oid applied_new =
              insert known_state.commit.oid applied_old), [], none⟩])) ∧
    (∀ cur : Commit, current = some cur →
      ∃ newtip : Commit, ∃ rcd : StepRecord,
        applyLoop st false current applied_old applied_new
            ((known_state, step) :: rest) =
          ((applyLoop st false (some newtip) (insert known_state.commit.oid applied_old)
              (insert step.commit.oid applied_new) rest).1,
            rcd :: (applyLoop st false (some newtip)
              (insert known_state.commit.oid applied_old)
              (insert step.commit.oid applied_new) rest).2) ∧
        newtip.message = cur.message ∧
        newtip.author = cur.author ∧
        newtip.parent_oids = cur.parent_oids ∧
        newtip.tree_oid = (st.update (st.rebase step.commit current
            (if insert step.commit.oid applied_new =
                insert known_state.commit.oid applied_old
             then some known_state.commit.tree_oid else none))
          none (some step.message) none).tree_oid) := by
  constructor
  · intro hnone
    subst hnone
    rw [applyLoop]
    rw [show processStep st false none applied_old applied_new known_state step =
        .halt (.error "Cannot apply fixup as first commit")
          ⟨decide (insert step.commit.oid applied_new =
            insert known_state.commit.oid applied_old), [], none⟩ by
      unfold processStep
      rw [if_neg (by rw [hact]; intro hc; exact CommitAction.noConfusion hc)]
      rw [hact]]
  · intro cur hcur
    subst hcur
    refine ⟨st.update cur (some (st.update (st.rebase step.commit (some cur)
        (if decide (insert step.commit.oid applied_new =
            insert known_state.commit.oid applied_old) = true
         then some known_state.commit.tree_oid else none))
        none (some step.message) none).tree_oid) none none, ?_⟩
    rw [applyLoop]
    rw [show processStep st false (some cur) applied_old applied_new known_state step =
        .cont (st.update cur (some (st.update (st.rebase step.commit (some cur)
            (if decide (insert step.commit.oid applied_new =
                insert known_state.commit.oid applied_old) = true
             then some known_state.commit.tree_oid else none))
            none (some step.message) none).tree_oid) none none)
          (insert known_state.commit.oid applied_old)
          (insert step.commit.oid applied_new)
          ⟨decide (insert step.commit.oid applied_new =
              insert known_state.commit.oid applied_old),
            (step.significant_extrasteps).map (fun ex => (ex.operand,
              (st.update cur (some (st.update (st.rebase step.commit (some cur)
                (if decide (insert step.commit.oid applied_new =
                    insert known_state.commit.oid applied_old) = true
                 then some known_state.commit.tree_oid else none))
                none (some step.message) none).tree_oid) none none).oid)),
            some (step.action, (st.update cur (some (st.update (st.rebase step.commit (some cur)
                (if decide (insert step.commit.oid applied_new =
                    insert known_state.commit.oid applied_old) = true
                 then some known_state.commit.tree_oid else none))
                none (some step.message) none).tree_oid) none none).oid,
              (st.update cur (some (st.update (st.rebase step.commit (some cur)
                (if decide (insert step.commit.oid applied_new =
                    insert known_state.commit.oid applied_old) = true
                 then some known_state.commit.tree_oid else none))
                none (some step.message) none).tree_oid) none none).summary)⟩ by
      unfold processStep
      rw [if_neg (by rw [hact]; intro hc; exact CommitAction.noConfusion hc)]
      rw [hact]
      rfl]
    refine ⟨_, rfl, rfl, rfl, rfl, ?_⟩
    by_cases hd : insert step.commit.oid applied_new = insert known_state.commit.oid applied_old
    · simp [hd, Store.update]
    · simp [hd, Store.update]

/-- Concrete instance of C4: a `fixup` step with no current tip aborts the
execution with the fatal error and performs no extra-step or progress
work. -/
theorem c4_witness :
    applyLoop (Store.mk (fun t ps m a => t + 1000 * ps.sum + 100000 * m.length + a)
        (fun c _ _ => c) id id 99) false none ∅ ∅
      [(CommitStep.init .pick (Commit.mk 1 100 [0] "commit one".toList 7),
        CommitStep.init .fixup (Commit.mk 2 101 [1] "commit two".toList 7))] =
      (.error "Cannot apply fixup as first commit",
        [⟨false, [], none⟩]) := by
  have := (c4_fixup_frame (Store.mk (fun t ps m a => t + 1000 * ps.sum + 100000 * m.length + a)
      (fun c _ _ => c) id id 99) none ∅ ∅
      (CommitStep.init .pick (Commit.mk 1 100 [0] "commit one".toList 7))
      (CommitStep.init .fixup (Commit.mk 2 101 [1] "commit two".toList 7))
      [] rfl).1 rfl
  rw [this]
  decide

/-- Taking the same prefix of both plans before zipping is taking the prefix
of the zipped plan. -/
theorem zip_take_take {α β : Type} (l1 : List α) (l2 : List β) (i : Nat) :
    (l1.take i).zip (l2.take i) = (l1.zip l2).take i := by
  induction l1 generalizing l2 i with
  | nil => simp
  | cons a t ih =>
    cases l2 with
    | nil => simp
    | cons b u =>
      cases i with
      | zero => simp
      | succ n => simp [List.zip_cons_cons, List.take_succ_cons, ih]

/-- A step whose edited action is `index` makes the loop halt before any
extra-step or progress work, returning the incoming tip. -/
theorem processStep_index (st : Store) (reauthor : Bool) (current : Option Commit)
    (A B : Finset Oid) (k s : CommitStep) (hs : s.action = CommitAction.index) :
    processStep st reauthor current A B k s =
      .halt (.ok current)
        ⟨decide (insert s.commit.oid B = insert k.commit.oid A), [], none⟩ := by
  unfold processStep
  rw [if_pos hs]

/-- The loop ignores everything after the first edited `index` step: result,
ref updates and progress agree with the run truncated before it. -/
theorem applyLoop_take_at_index (st : Store) (reauthor : Bool) :
    ∀ (i : Nat) (pairs : List (CommitStep × CommitStep)) (current : Option Commit)
      (A B : Finset Oid),
      (∀ j k s, j < i → pairs[j]? = some (k, s) → s.action ≠ CommitAction.index) →
      (∃ k s, pairs[i]? = some (k, s) ∧ s.action = CommitAction.index) →
      ((applyLoop st reauthor current A B pairs).1 =
        (applyLoop st reauthor current A B (pairs.take i)).1 ∧
       ((applyLoop st reauthor current A B pairs).2.map StepRecord.updates).flatten =
        ((applyLoop st reauthor current A B (pairs.take i)).2.map StepRecord.updates).flatten ∧
       (applyLoop st reauthor current A B pairs).2.filterMap StepRecord.progress =
        (applyLoop st reauthor current A B (pairs.take i)).2.filterMap StepRecord.progress) := by
  intro i
  induction i with
  | zero =>
    intro pairs current A B hbefore hat
    obtain ⟨k, s, hget, hs⟩ := hat
    cases pairs with
    | nil => exact absurd hget (by simp)
    | cons p rest =>
      have hp : p = (k, s) := by simpa using hget
      subst hp
      rw [List.take_zero, applyLoop, applyLoop, processStep_index st reauthor current A B k s hs]
      exact ⟨rfl, rfl, rfl⟩
  | succ n ih =>
    intro pairs current A B hbefore hat
    obtain ⟨k, s, hget, hs⟩ := hat
    cases pairs with
    | nil => exact absurd hget (by simp)
    | cons p rest =>
      rw [List.take_succ_cons, applyLoop, applyLoop]
      cases hps : processStep st reauthor current A B p.1 p.2 with
      | halt r rcd => exact ⟨rfl, rfl, rfl⟩
      | cont cur' A' B' rcd =>
        have hrest := ih rest (some cur') A' B'
          (fun j k' s' hj hg => hbefore (j+1) k' s' (by omega) (by simpa using hg))
          ⟨k, s, by simpa using hget, hs⟩
        refine ⟨hrest.1, ?_, ?_⟩
        · simp only [List.map_cons, List.flatten_cons]
          rw [hrest.2.1]
        · simp only [List.filterMap_cons]
          cases rcd.progress with
          | none => exact hrest.2.2
          | some pr => rw [hrest.2.2]

/-- The final result of `apply_todos` as a function of the loop result. -/
theorem apply_todos_final (st : Store) (current : Option Commit)
    (orig edited : List CommitStep) (reauthor : Bool) :
    (apply_todos st current orig edited reauthor).final =
      (match (applyLoop st reauthor current ∅ ∅ (orig.zip edited)).1 with
       | .error e => .error e
       | .ok none => .error "No commits introduced on top of root commit"
       | .ok (some c) => .ok c) := by
  cases hres : (applyLoop st reauthor current ∅ ∅ (orig.zip edited)).1 with
  | error e => simp [apply_todos, hres]
  | ok c =>
    cases c with
    | none => simp [apply_todos, hres]
    | some c0 => simp [apply_todos, hres]

/-- The records of `apply_todos` are those of the loop. -/
theorem apply_todos_records (st : Store) (current : Option Commit)
    (orig edited : List CommitStep) (reauthor : Bool) :
    (apply_todos st current orig edited reauthor).records =
      (applyLoop st reauthor current ∅ ∅ (orig.zip edited)).2 := by
  cases hres : (applyLoop st reauthor current ∅ ∅ (orig.zip edited)).1 with
  | error e => simp [apply_todos, hres]
  | ok c =>
    cases c with
    | none => simp [apply_todos, hres]
    | some c0 => simp [apply_todos, hres]

/-- C9: when the edited plan reaches its first `index` step at position `i`,
`apply_todos` stops strictly before that step's post-action work — the final
result, the `update_head` calls and the progress lines all equal those of the
execution truncated to the first `i` steps, so the reauthor rewrite, the
extra steps (in particular any `update-ref`) and the progress line of the
index step and of every later step never happen. -/
theorem c9_index_break_skips_work (st : Store) (current : Option Commit)
    (orig edited : List CommitStep) (reauthor : Bool) (i : Nat)
    (hbefore : ∀ j, j < i → ∀ sj : CommitStep, edited[j]? = some sj →
      sj.action ≠ CommitAction.index)
    (hat : ∃ si : CommitStep, edited[i]? = some si ∧ si.action = CommitAction.index)
    (hlen : i < orig.length) :
    (apply_todos st current orig edited reauthor).final =
      (apply_todos st current (orig.take i) (edited.take i) reauthor).final ∧
    (apply_todos st current orig edited reauthor).ref_updates =
      (apply_todos st current (orig.take i) (edited.take i) reauthor).ref_updates ∧
    (apply_todos st current orig edited reauthor).progress_lines =
      (apply_todos st current (orig.take i) (edited.take i) reauthor).progress_lines := by
  obtain ⟨si, hgi, hsi⟩ := hat
  have hloop := applyLoop_take_at_index st reauthor i (orig.zip edited) current ∅ ∅
    (by
      intro j k s hj hg
      rw [List.getElem?_zip_eq_some] at hg
      exact hbefore j hj s hg.2)
    (by
      refine ⟨orig[i], si, ?_, hsi⟩
      rw [List.getElem?_zip_eq_some]
      exact ⟨List.getElem?_eq_getElem hlen, hgi⟩)
  rw [← zip_take_take] at hloop
  obtain ⟨h1, h2, h3⟩ := hloop
  refine ⟨?_, ?_, ?_⟩
  · rw [apply_todos_final, apply_todos_final, h1]
  · unfold ExecResult.ref_updates
    rw [apply_todos_records, apply_todos_records]
    exact h2
  · unfold ExecResult.progress_lines
    rw [apply_todos_records, apply_todos_records]
    exact h3

/-- Fixture store for the concrete executor instances: an arithmetic content
hash, a rebase returning its commit argument, identity editors. -/
def fixStore : Store :=
  ⟨fun t ps m a => t + 1000 * ps.sum + 100000 * m.length + a,
    fun c _ _ => c, id, id, 99⟩

/-- Fixture commits for the concrete executor instances. -/
def fixRoot : Commit := ⟨0, 99, [], "root".toList, 7⟩

def fixA : Commit := ⟨1, 100, [0], "commit one".toList, 7⟩

def fixB : Commit := ⟨2, 101, [1], "commit two".toList, 7⟩

/-- Concrete instance of C9: an `update-ref` extra step attached to an index
step never repoints its branch, and the index step prints no progress. -/
theorem c9_witness :
    ((apply_todos fixStore (some fixRoot)
        [CommitStep.init .pick fixA, CommitStep.init .pick fixB]
        [CommitStep.init .pick fixA,
          CommitStep.mk .index fixB fixB.message
            [⟨.updateRef, "refs/heads/b".toList⟩]] false).final =
      (apply_todos fixStore (some fixRoot)
        [CommitStep.init .pick fixA] [CommitStep.init .pick fixA] false).final) ∧
    ((apply_todos fixStore (some fixRoot)
        [CommitStep.init .pick fixA, CommitStep.init .pick fixB]
        [CommitStep.init .pick fixA,
          CommitStep.mk .index fixB fixB.message
            [⟨.updateRef, "refs/heads/b".toList⟩]] false).ref_updates =
      (apply_todos fixStore (some fixRoot)
        [CommitStep.init .pick fixA] [CommitStep.init .pick fixA] false).ref_updates) ∧
    ((apply_todos fixStore (some fixRoot)
        [CommitStep.init .pick fixA, CommitStep.init .pick fixB]
        [CommitStep.init .pick fixA,
          CommitStep.mk .index fixB fixB.message
            [⟨.updateRef, "refs/heads/b".toList⟩]] false).progress_lines =
      (apply_todos fixStore (some fixRoot)
        [CommitStep.init .pick fixA] [CommitStep.init .pick fixA] false).progress_lines) :=
  c9_index_break_skips_work fixStore (some fixRoot)
    [CommitStep.init .pick fixA, CommitStep.init .pick fixB]
    [CommitStep.init .pick fixA,
      CommitStep.mk .index fixB fixB.message
        [⟨.updateRef, "refs/heads/b".toList⟩]] false 1
    (by
      intro j hj sj hg
      have hj0 : j = 0 := by omega
      subst hj0
      simp only [List.getElem?_cons_zero, Option.some_inj] at hg
      rw [← hg]
      decide)
    ⟨CommitStep.mk .index fixB fixB.message [⟨.updateRef, "refs/heads/b".toList⟩],
      by decide, rfl⟩
    (by decide)

/-- Projection of the record out of a step outcome. -/
def StepOutcome.rcd : StepOutcome → StepRecord
  | .halt _ r => r
  | .cont _ _ _ r => r

/-- Every processed step records as its déjà-vu flag exactly the equality
test of the two grown touched sets. -/
theorem processStep_rcd_dejaVu (st : Store) (reauthor : Bool)
    (current : Option Commit) (A B : Finset Oid) (k s : CommitStep) :
    (processStep st reauthor current A B k s).rcd.dejaVu =
      decide (insert s.commit.oid B = insert k.commit.oid A) := by
  by_cases hidx : s.action = CommitAction.index
  · unfold processStep
    rw [if_pos hidx]
    rfl
  · unfold processStep
    rw [if_neg hidx]
    cases hact : s.action with
    | index => exact absurd hact hidx
    | pick =>
      simp only [hact]
      rfl
    | fixup =>
      simp only [hact]
      cases current <;> rfl
    | squash =>
      simp only [hact]
      cases current <;> rfl
    | reword =>
      simp only [hact]
      rfl
    | cut =>
      simp only [hact]
      rfl

/-- A continuing step grows the touched sets by exactly the two commit
identities of the processed pair. -/
theorem processStep_cont_sets (st : Store) (reauthor : Bool)
    (current : Option Commit) (A B : Finset Oid) (k s : CommitStep)
    (cur' : Commit) (A' B' : Finset Oid) (rcd : StepRecord)
    (h : processStep st reauthor current A B k s = .cont cur' A' B' rcd) :
    A' = insert k.commit.oid A ∧ B' = insert s.commit.oid B := by
  unfold processStep at h
  by_cases hidx : s.action = CommitAction.index
  · rw [if_pos hidx] at h
    exact StepOutcome.noConfusion h
  · rw [if_neg hidx] at h
    cases hact : s.action with
    | index => exact absurd hact hidx
    | pick =>
      simp only [hact] at h
      cases h
      exact ⟨rfl, rfl⟩
    | fixup =>
      simp only [hact] at h
      cases current with
      | none => exact StepOutcome.noConfusion h
      | some cur =>
        cases h
        exact ⟨rfl, rfl⟩
    | squash =>
      simp only [hact] at h
      cases current with
      | none => exact StepOutcome.noConfusion h
      | some cur =>
        cases h
        exact ⟨rfl, rfl⟩
    | reword =>
      simp only [hact] at h
      cases h
      exact ⟨rfl, rfl⟩
    | cut =>
      simp only [hact] at h
      cases h
      exact ⟨rfl, rfl⟩

/-- The loop's `kk`-th record carries the déjà-vu flag of the touched sets
grown by the first `kk+1` pairs on top of the incoming sets. -/
theorem applyLoop_dejaVu (st : Store) (reauthor : Bool) :
    ∀ (pairs : List (CommitStep × CommitStep)) (current : Option Commit)
      (A B : Finset Oid) (kk : Nat) (rcd : StepRecord),
      (applyLoop st reauthor current A B pairs).2[kk]? = some rcd →
      rcd.dejaVu =
        decide ((((pairs.take (kk+1)).map (fun p => p.2.commit.oid)).toFinset ∪ B) =
          (((pairs.take (kk+1)).map (fun p => p.1.commit.oid)).toFinset ∪ A)) := by
  intro pairs
  induction pairs with
  | nil =>
    intro current A B kk rcd h
    simp [applyLoop] at h
  | cons p rest ih =>
    intro current A B kk rcd h
    rw [applyLoop] at h
    cases hps : processStep st reauthor current A B p.1 p.2 with
    | halt r rcd0 =>
      rw [hps] at h
      cases kk with
      | zero =>
        have hr : rcd0 = rcd := by simpa using h
        have hr0 : rcd0 = (processStep st reauthor current A B p.1 p.2).rcd := by
          rw [hps]
          rfl
        rw [← hr, hr0, processStep_rcd_dejaVu]
        congr 1
      | succ n => simp at h
    | cont cur' A' B' rcd0 =>
      rw [hps] at h
      obtain ⟨hA', hB'⟩ := processStep_cont_sets st reauthor current A B p.1 p.2
        cur' A' B' rcd0 hps
      cases kk with
      | zero =>
        have hr : rcd0 = rcd := by simpa using h
        have hr0 : rcd0 = (processStep st reauthor current A B p.1 p.2).rcd := by
          rw [hps]
          rfl
        rw [← hr, hr0, processStep_rcd_dejaVu]
        congr 1
      | succ n =>
        have hn : (applyLoop st reauthor (some cur') A' B' rest).2[n]? = some rcd := by
          simpa using h
        rw [ih (some cur') A' B' n rcd hn, hA', hB']
        congr 1
        rw [eq_iff_iff]
        rw [List.take_succ_cons, List.map_cons, List.map_cons, List.toFinset_cons,
          List.toFinset_cons, Finset.insert_union, Finset.insert_union,
          ← Finset.union_insert, ← Finset.union_insert]

/-- C1 (amended): the déjà-vu optimization is applied at a step exactly when
the two touched sets — the commit identities of the paired original and
edited steps seen so far — are equal after that step; equality is re-tested
at every step, so the optimization is re-enabled whenever the sets
re-converge. -/
theorem c1_deja_vu_iff_sets_equal (st : Store) (current : Option Commit)
    (orig edited : List CommitStep) (reauthor : Bool) (kk : Nat) (rcd : StepRecord)
    (h : (apply_todos st current orig edited reauthor).records[kk]? = some rcd) :
    rcd.dejaVu =
      decide ((((orig.zip edited).take (kk+1)).map (fun p => p.2.commit.oid)).toFinset =
        (((orig.zip edited).take (kk+1)).map (fun p => p.1.commit.oid)).toFinset) := by
  rw [apply_todos_records] at h
  rw [applyLoop_dejaVu st reauthor (orig.zip edited) current ∅ ∅ kk rcd h]
  congr 1
  rw [eq_iff_iff]
  simp

/-- Concrete instance of the amended C1, at the second step of a reordered
two-commit plan. -/
theorem c1_witness :
    ∃ rcd : StepRecord,
      (apply_todos fixStore (some fixRoot)
        [CommitStep.init .pick fixA, CommitStep.init .pick fixB]
        [CommitStep.init .pick fixB, CommitStep.init .pick fixA] false).records[1]? =
        some rcd ∧
      rcd.dejaVu =
        decide ((((([CommitStep.init .pick fixA, CommitStep.init .pick fixB].zip
            [CommitStep.init .pick fixB, CommitStep.init .pick fixA]).take 2).map
              (fun p => p.2.commit.oid)).toFinset =
          ((([CommitStep.init .pick fixA, CommitStep.init .pick fixB].zip
            [CommitStep.init .pick fixB, CommitStep.init .pick fixA]).take 2).map
              (fun p => p.1.commit.oid)).toFinset)) := by
  cases hr : (apply_todos fixStore (some fixRoot)
      [CommitStep.init .pick fixA, CommitStep.init .pick fixB]
      [CommitStep.init .pick fixB, CommitStep.init .pick fixA] false).records[1]? with
  | none => exact absurd hr (by decide)
  | some rcd =>
    exact ⟨rcd, rfl, c1_deja_vu_iff_sets_equal fixStore (some fixRoot)
      [CommitStep.init .pick fixA, CommitStep.init .pick fixB]
      [CommitStep.init .pick fixB, CommitStep.init .pick fixA] false 1 rcd hr⟩

/-- Counterexample to C1 as stated: swapping two picks makes the touched sets
differ after the first step (no optimization there), yet the optimization is
applied again at the second step once the sets re-converge — it is not
disabled for the rest of the execution. -/
theorem c1_counterexample :
    ((((([CommitStep.init .pick fixA, CommitStep.init .pick fixB].zip
          [CommitStep.init .pick fixB, CommitStep.init .pick fixA]).take 1).map
            (fun p => p.2.commit.oid)).toFinset ≠
        ((([CommitStep.init .pick fixA, CommitStep.init .pick fixB].zip
          [CommitStep.init .pick fixB, CommitStep.init .pick fixA]).take 1).map
            (fun p => p.1.commit.oid)).toFinset)) ∧
    (apply_todos fixStore (some fixRoot)
        [CommitStep.init .pick fixA, CommitStep.init .pick fixB]
        [CommitStep.init .pick fixB, CommitStep.init .pick fixA] false).records.map
      StepRecord.dejaVu = [false, true] := by
  constructor
  · decide
  · decide

/-- C10: `autosquash_todos` is not total — on a plan containing a step whose
commit summary is exactly `"fixup! "` (the prefix with no text after it), the
prefix-stripping loop of `add_autosquash_step` hits its unchecked `[1]` index
and raises an `IndexError` instead of returning a plan. -/
theorem c10_autosquash_not_total :
    autosquash_todos (fun _ => none)
      [CommitStep.init .pick (Commit.mk 6 106 [5] "fixup! ".toList 7)] =
      .error "IndexError: list index out of range" := by
  have hsum : Commit.summary (Commit.mk 6 106 [5] "fixup! ".toList 7) =
      "fixup! ".toList := by
    decide
  have hs : stripAutosquash "fixup! ".toList =
      .error "IndexError: list index out of range" := by
    rw [stripAutosquash]
    simp only [show ("fixup! ".toList.isPrefixOf "fixup! ".toList) = true from by decide,
      show pySplitMax1 "fixup! ".toList = ["fixup!".toList] from by decide]
    decide
  unfold autosquash_todos
  simp only [List.foldlM]
  unfold add_autosquash_step
  simp only [CommitStep.init, hsum, hs]
  rfl

/-- Concrete instances of C7: `"p"` resolves to `pick` (first in order), and
`"z"` matches no action. -/
theorem c7_witness :
    ("p".toList.isPrefixOf (Action.str (.inl .pick)) = true ∧
      ∃ l1 l2 : List Action, allActions = l1 ++ (Sum.inl CommitAction.pick) :: l2 ∧
        ∀ b ∈ l1, "p".toList.isPrefixOf (Action.str b) = false) ∧
    (∀ a ∈ allActions, "z".toList.isPrefixOf (Action.str a) = false) := by
  constructor
  · exact ((c7_parse_action_first_match "p".toList).1 (.inl .pick)).mp (by decide)
  · exact (c7_parse_action_first_match "z".toList).2.mp (by decide)

/-- The splitter `splitNL` never returns the empty list of segments. -/
theorem splitNL_ne_nil (s : Str) : splitNL s ≠ [] := by
  induction s with
  | nil => simp [splitNL]
  | cons c rest ih =>
    rw [splitNL]
    by_cases hc : c = '\n'
    · simp [hc]
    · rw [if_neg hc]
      cases h : splitNL rest with
      | nil => simp
      | cons h t => simp

/-- Splitting around an explicit newline splits each side separately. -/
theorem splitNL_append_nl (a b : Str) :
    splitNL (a ++ '\n' :: b) = splitNL a ++ splitNL b := by
  induction a with
  | nil => simp [splitNL]
  | cons c a' ih =>
    by_cases hc : c = '\n'
    · subst hc
      rw [List.cons_append, splitNL, if_pos rfl, ih, splitNL, if_pos rfl,
        List.cons_append]
    · rw [List.cons_append, splitNL, if_neg hc, ih]
      rw [splitNL, if_neg hc]
      cases h : splitNL a' with
      | nil => exact absurd h (splitNL_ne_nil a')
      | cons h1 t1 => rw [List.cons_append, List.cons_append]

/-- A newline-free byte string is a single segment. -/
theorem splitNL_no_nl (s : Str) (h : ∀ c ∈ s, c ≠ '\n') : splitNL s = [s] := by
  induction s with
  | nil => rfl
  | cons c rest ih =>
    rw [splitNL, if_neg (h c (by simp)),
      ih (fun x hx => h x (List.mem_cons_of_mem _ hx))]

/-- Prepending one non-newline character extends the first segment. -/
theorem splitNL_cons_ne (c : Char) (s : Str) (hc : c ≠ '\n') (h t)
    (hs : splitNL s = h :: t) : splitNL (c :: s) = (c :: h) :: t := by
  rw [splitNL, if_neg hc, hs]

/-- The join `joinNL` undoes `splitNL`. -/
theorem joinNL_splitNL (s : Str) : joinNL (splitNL s) = s := by
  induction s with
  | nil => rfl
  | cons c rest ih =>
    rw [splitNL]
    by_cases hc : c = '\n'
    · subst hc
      rw [if_pos rfl]
      cases h : splitNL rest with
      | nil => exact absurd h (splitNL_ne_nil rest)
      | cons h1 t1 =>
        rw [h] at ih
        rw [joinNL, ih]
        rfl
    · rw [if_neg hc]
      cases h : splitNL rest with
      | nil => exact absurd h (splitNL_ne_nil rest)
      | cons h1 t1 =>
        rw [h] at ih
        cases t1 with
        | nil =>
          rw [joinNL] at ih ⊢
          rw [ih]
        | cons t2 ts =>
          rw [joinNL] at ih ⊢
          rw [List.cons_append, ih]

/-- Appending a final empty segment appends a newline, for a nonempty
segment list. -/
theorem joinNL_concat_empty (xs : List Str) (hne : xs ≠ []) :
    joinNL (xs ++ [[]]) = joinNL xs ++ ['\n'] := by
  induction xs with
  | nil => exact absurd rfl hne
  | cons x rest ih =>
    cases rest with
    | nil => rfl
    | cons y ys =>
      rw [List.cons_append, List.cons_append, joinNL, ← List.cons_append,
        ih (by simp), joinNL]
      simp

/-- The grouping `blocksFromLines` never returns the empty group list. -/
theorem blocksFromLines_ne_nil (lines : List Str) : blocksFromLines lines ≠ [] := by
  induction lines with
  | nil => simp [blocksFromLines]
  | cons l rest ih =>
    rw [blocksFromLines]
    cases h : blocksFromLines rest with
    | nil => simp
    | cons g gs =>
      split
      · simp
      · split
        · simp
        · simp

/-- Non-marker lines at the front extend the current head group. -/
theorem blocksFromLines_prepend (xs lines : List Str)
    (hx : ∀ l ∈ xs, ("++ ".toList.isPrefixOf l) = false) (g : List Str)
    (gs : List (List Str)) (h : blocksFromLines lines = g :: gs) :
    blocksFromLines (xs ++ lines) = (xs ++ g) :: gs := by
  induction xs with
  | nil => simpa using h
  | cons x xs' ih =>
    rw [List.cons_append, blocksFromLines,
      ih (fun l hl => hx l (List.mem_cons_of_mem _ hl)),
      hx x (by simp)]
    simp

/-- Cleanliness of a serialized message-editing entry: no line of it after
the first may itself start with the `"++ "` block delimiter (the documented
delimiter limitation of the message-editing format). -/
def msgeditEntryClean (e : Str) : Bool :=
  (splitNL e).tail.all (fun l => !("++ ".toList.isPrefixOf l))

/-- The line groups contributed by each serialized entry: every entry opens
one group; the trailing newline of the last block contributes a final empty
line to the last group. -/
def entryGroups : List Str → List (List Str)
  | [] => []
  | [e] => [splitNL e ++ [[]]]
  | e :: es => splitNL e :: entryGroups es

/-- Serialized clean entries make exactly one group per entry (plus the empty
pre-marker group). -/
theorem blocksFromLines_entries (es : List Str) (hne : es ≠ [])
    (hclean : ∀ e ∈ es, msgeditEntryClean e = true) :
    blocksFromLines (splitNL ((es.map (fun x => "++ ".toList ++ x ++ ['\n'])).flatten)) =
      [] :: entryGroups es := by
  induction es with
  | nil => exact absurd rfl hne
  | cons e es' ih =>
    obtain ⟨eh, et, he⟩ : ∃ eh et, splitNL e = eh :: et := by
      cases h : splitNL e with
      | nil => exact absurd h (splitNL_ne_nil e)
      | cons eh et => exact ⟨eh, et, rfl⟩
    have het : ∀ l ∈ et, ("++ ".toList.isPrefixOf l) = false := by
      intro l hl
      have hcl := hclean e (by simp)
      rw [msgeditEntryClean, he] at hcl
      simpa using List.all_eq_true.mp hcl l hl
    have hsplit : splitNL (((e :: es').map
          (fun x => "++ ".toList ++ x ++ ['\n'])).flatten) =
        ('+' :: '+' :: ' ' :: eh) :: (et ++
          splitNL ((es'.map (fun x => "++ ".toList ++ x ++ ['\n'])).flatten)) := by
      rw [List.map_cons, List.flatten_cons]
      rw [show ("++ ".toList ++ e ++ ['\n']) ++
          ((es'.map (fun x => "++ ".toList ++ x ++ ['\n'])).flatten) =
          '+' :: '+' :: ' ' :: (e ++ '\n' ::
            ((es'.map (fun x => "++ ".toList ++ x ++ ['\n'])).flatten)) by simp]
      have h1 : splitNL (e ++ '\n' ::
          ((es'.map (fun x => "++ ".toList ++ x ++ ['\n'])).flatten)) =
          eh :: (et ++ splitNL ((es'.map
            (fun x => "++ ".toList ++ x ++ ['\n'])).flatten)) := by
        rw [splitNL_append_nl, he, List.cons_append]
      have h2 := splitNL_cons_ne ' ' _ (by decide) _ _ h1
      have h3 := splitNL_cons_ne '+' _ (by decide) _ _ h2
      exact splitNL_cons_ne '+' _ (by decide) _ _ h3
    have hm : ("++ ".toList.isPrefixOf ('+' :: '+' :: ' ' :: eh)) = true := by
      simp [List.isPrefixOf]
    cases es' with
    | nil =>
      have hb : blocksFromLines (et ++ [[]]) = (et ++ [([] : Str)]) :: [] :=
        blocksFromLines_prepend et [[]] het [([] : Str)] []
          (by rfl)
      simp only [List.map_nil, List.flatten_nil] at hsplit
      rw [show splitNL ([] : Str) = [([] : Str)] from rfl] at hsplit
      rw [hsplit, blocksFromLines, hb, hm]
      simp only [if_true, entryGroups, he]
      rfl
    | cons e2 es'' =>
      have hrec := ih (by simp) (fun x hx => hclean x (List.mem_cons_of_mem _ hx))
      obtain ⟨g0, gs0, hg⟩ : ∃ g0 gs0, blocksFromLines (splitNL (((e2 :: es'').map
          (fun x => "++ ".toList ++ x ++ ['\n'])).flatten)) = g0 :: gs0 ∧
          g0 = [] ∧ gs0 = entryGroups (e2 :: es'') := by
        rw [hrec]
        exact ⟨[], entryGroups (e2 :: es''), rfl, rfl, rfl⟩
      have hb := blocksFromLines_prepend et _ het g0 gs0 hg.1
      rw [hsplit, blocksFromLines, hb, hm]
      simp only [if_true, hg.2.1, hg.2.2, List.append_nil]
      rw [show (('+' :: '+' :: ' ' :: eh).drop 3) = eh from rfl]
      rw [show entryGroups (e :: e2 :: es'') = splitNL e :: entryGroups (e2 :: es'')
        from rfl, he]

/-- Rebuilding the grouped entries restores each serialized entry followed by
its newline. -/
theorem finalizeBlocks_entryGroups (es : List Str) :
    finalizeBlocks (entryGroups es) = es.map (fun e => e ++ ['\n']) := by
  induction es with
  | nil => rfl
  | cons e es' ih =>
    cases es' with
    | nil =>
      rw [show entryGroups [e] = [splitNL e ++ [[]]] from rfl]
      rw [finalizeBlocks, joinNL_concat_empty _ (splitNL_ne_nil e), joinNL_splitNL]
      rfl
    | cons e2 es'' =>
      obtain ⟨g, gs, hg⟩ : ∃ g gs, entryGroups (e2 :: es'') = g :: gs := by
        cases es'' with
        | nil => exact ⟨splitNL e2 ++ [[]], [], rfl⟩
        | cons e3 es3 => exact ⟨splitNL e2, entryGroups (e3 :: es3), rfl⟩
      rw [show entryGroups (e :: e2 :: es'') = splitNL e :: entryGroups (e2 :: es'')
        from rfl, hg, finalizeBlocks, joinNL_splitNL, ← hg, ih]
      rfl

/-- Splitting the serialized message-editing text of clean entries recovers
exactly one block per entry. -/
theorem blocksOf_entries (es : List Str)
    (hclean : ∀ e ∈ es, msgeditEntryClean e = true) :
    blocksOf ((es.map (fun x => "++ ".toList ++ x ++ ['\n'])).flatten) =
      es.map (fun e => e ++ ['\n']) := by
  cases es with
  | nil => rfl
  | cons e es' =>
    unfold blocksOf
    rw [blocksFromLines_entries (e :: es') (by simp) hclean]
    exact finalizeBlocks_entryGroups (e :: es')

/-- A successfully parsed block list extends by one parsed block at its
end. -/
theorem parseBlocks_snoc (resolve : Str → Except String Commit) (l : List Str)
    (b : Str) (vs : List PolyStep) (v : PolyStep)
    (hl : parseBlocks resolve l = .ok vs) (hb : parseBlock resolve b = .ok v) :
    parseBlocks resolve (l ++ [b]) = .ok (vs ++ [v]) := by
  induction l generalizing vs with
  | nil =>
    rw [parseBlocks] at hl
    cases hl
    rw [List.nil_append, parseBlocks, hb]
    rfl
  | cons x xs ih =>
    rw [parseBlocks] at hl
    cases hx : parseBlock resolve x with
    | error e =>
      rw [hx] at hl
      exact Except.noConfusion hl
    | ok p =>
      rw [hx] at hl
      cases hxs : parseBlocks resolve xs with
      | error e =>
        rw [hxs] at hl
        exact Except.noConfusion hl
      | ok ps =>
        rw [hxs] at hl
        cases hl
        rw [List.cons_append, parseBlocks, hx, ih ps hxs]
        rfl

/-- When every block parses, parsing in reverse order parses to the reversed
list. -/
theorem parseBlocks_reverse (resolve : Str → Except String Commit) (l : List Str)
    (h : ∀ b ∈ l, (parseBlock resolve b).isOk = true) :
    ∃ vs, parseBlocks resolve l = .ok vs ∧
      parseBlocks resolve l.reverse = .ok vs.reverse := by
  induction l with
  | nil => exact ⟨[], rfl, rfl⟩
  | cons b rest ih =>
    obtain ⟨vs, hf, hr⟩ := ih (fun x hx => h x (List.mem_cons_of_mem _ hx))
    obtain ⟨v, hv⟩ : ∃ v, parseBlock resolve b = .ok v := by
      have hb := h b (by simp)
      cases hx : parseBlock resolve b with
      | error e =>
        rw [hx] at hb
        exact Bool.noConfusion hb
      | ok v => exact ⟨v, rfl⟩
    refine ⟨v :: vs, ?_, ?_⟩
    · rw [parseBlocks, hv, hf]
      rfl
    · rw [List.reverse_cons, parseBlocks_snoc resolve rest.reverse b vs.reverse v hr hv]
      simp

/-- A successfully parsed line list extends by one line at its end: skipped
if whitespace, appended if it parses. -/
theorem parseLines_snoc (resolve : Str → Except String Commit) (l : List Str)
    (b : Str) (vs : List PolyStep)
    (hl : parseLines resolve l = .ok vs) :
    (pyIsSpace b = true → parseLines resolve (l ++ [b]) = .ok vs) ∧
    (pyIsSpace b = false → ∀ v, parse_step resolve (pyStrip b) = .ok v →
      parseLines resolve (l ++ [b]) = .ok (vs ++ [v])) := by
  induction l generalizing vs with
  | nil =>
    rw [parseLines] at hl
    cases hl
    refine ⟨?_, ?_⟩
    · intro hsp
      rw [List.nil_append, parseLines, if_pos hsp]
      rfl
    · intro hsp v hv
      rw [List.nil_append, parseLines, if_neg (by rw [hsp]; exact Bool.noConfusion),
        hv]
      rfl
  | cons x xs ih =>
    rw [parseLines] at hl
    by_cases hx : pyIsSpace x = true
    · rw [if_pos hx] at hl
      obtain ⟨ha, hb2⟩ := ih vs hl
      refine ⟨?_, ?_⟩
      · intro hsp
        rw [List.cons_append, parseLines, if_pos hx]
        exact ha hsp
      · intro hsp v hv
        rw [List.cons_append, parseLines, if_pos hx]
        exact hb2 hsp v hv
    · rw [if_neg hx] at hl
      cases hpx : parse_step resolve (pyStrip x) with
      | error e =>
        rw [hpx] at hl
        exact Except.noConfusion hl
      | ok p =>
        rw [hpx] at hl
        cases hxs : parseLines resolve xs with
        | error e =>
          rw [hxs] at hl
          exact Except.noConfusion hl
        | ok ps =>
          rw [hxs] at hl
          cases hl
          obtain ⟨ha, hb2⟩ := ih ps hxs
          refine ⟨?_, ?_⟩
          · intro hsp
            rw [List.cons_append, parseLines, if_neg hx, hpx, ha hsp]
            rfl
          · intro hsp v hv
            rw [List.cons_append, parseLines, if_neg hx, hpx, hb2 hsp v hv]
            rfl

/-- When every non-whitespace line parses, parsing the reversed lines parses
to the reversed list. -/
theorem parseLines_reverse (resolve : Str → Except String Commit) (l : List Str)
    (h : ∀ b ∈ l, pyIsSpace b = true ∨ ∃ v, parse_step resolve (pyStrip b) = .ok v) :
    ∃ vs, parseLines resolve l = .ok vs ∧
      parseLines resolve l.reverse = .ok vs.reverse := by
  induction l with
  | nil => exact ⟨[], rfl, rfl⟩
  | cons b rest ih =>
    obtain ⟨vs, hf, hr⟩ := ih (fun x hx => h x (List.mem_cons_of_mem _ hx))
    by_cases hsp : pyIsSpace b = true
    · refine ⟨vs, ?_, ?_⟩
      · rw [parseLines, if_pos hsp]
        exact hf
      · rw [List.reverse_cons]
        exact (parseLines_snoc resolve rest.reverse b vs.reverse hr).1 hsp
    · have hsp2 : pyIsSpace b = false := by
        cases hq : pyIsSpace b
        · rfl
        · exact absurd hq hsp
      obtain ⟨v, hv⟩ : ∃ v, parse_step resolve (pyStrip b) = .ok v := by
        rcases h b (by simp) with hc | hc
        · exact absurd hc hsp
        · exact hc
      refine ⟨v :: vs, ?_, ?_⟩
      · rw [parseLines, if_neg hsp, hv, hf]
        rfl
      · rw [List.reverse_cons,
          (parseLines_snoc resolve rest.reverse b vs.reverse hr).2 hsp2 v hv]
        simp

/-- With the identity editor and clean, parseable entries, the head-on-top
flag makes `edit_todos_msgedit` parse the exact reverse of the flag-off
parse. -/
theorem edit_todos_msgedit_reverse (resolve : Str → Except String Commit)
    (todos : List CommitStep)
    (hclean : ∀ e ∈ msgeditEntries todos, msgeditEntryClean e = true)
    (hok : ∀ e ∈ msgeditEntries todos, (parseBlock resolve (e ++ ['\n'])).isOk = true) :
    ∃ vs, edit_todos_msgedit id resolve todos false = .ok vs ∧
      edit_todos_msgedit id resolve todos true = .ok vs.reverse := by
  obtain ⟨vs, hf, hr⟩ := parseBlocks_reverse resolve
    ((msgeditEntries todos).map (fun e => e ++ ['\n']))
    (by
      intro b hb
      obtain ⟨e, he, rfl⟩ := List.mem_map.mp hb
      exact hok e he)
  refine ⟨vs, ?_, ?_⟩
  · simp only [edit_todos_msgedit, Bool.false_eq_true, if_false, id_eq]
    rw [blocksOf_entries _ hclean]
    exact hf
  · simp only [edit_todos_msgedit, if_true, id_eq]
    rw [blocksOf_entries (msgeditEntries todos).reverse
        (fun e he => hclean e (List.mem_reverse.mp he)),
      List.map_reverse]
    exact hr

/-- Prepending a boundary-free entry and its terminating newline to a text
contributes exactly one segment under the `splitlines` boundaries. -/
theorem pySplitlinesAux_clean_append (a b : Str)
    (ha : ∀ c ∈ a, c ≠ '\n' ∧ c ≠ '\r') :
    pySplitlinesAux (a ++ '\n' :: b) = a :: pySplitlinesAux b := by
  induction a with
  | nil =>
    cases b with
    | nil => rfl
    | cons c2 rest =>
      rw [List.nil_append, pySplitlinesAux, if_pos rfl]
  | cons c a' ih =>
    have hc := ha c (by simp)
    obtain ⟨x2, xs, hX⟩ : ∃ x2 xs, a' ++ '\n' :: b = x2 :: xs := by
      cases a' with
      | nil => exact ⟨'\n', b, rfl⟩
      | cons d a'' => exact ⟨d, a'' ++ '\n' :: b, rfl⟩
    rw [List.cons_append, hX, pySplitlinesAux, if_neg hc.1, if_neg hc.2, ← hX,
      ih (fun x hx => ha x (List.mem_cons_of_mem _ hx))]

/-- The serialized line-wise text of boundary-free entries splits back into
the entries plus the final empty segment of the trailing newline. -/
theorem pySplitlinesAux_entries (es : List Str)
    (h : ∀ e ∈ es, ∀ c ∈ e, c ≠ '\n' ∧ c ≠ '\r') :
    pySplitlinesAux ((es.map (fun x => x ++ ['\n'])).flatten) = es ++ [[]] := by
  induction es with
  | nil => rfl
  | cons e es' ih =>
    rw [List.map_cons, List.flatten_cons, List.append_assoc, List.singleton_append,
      pySplitlinesAux_clean_append e _ (h e (by simp)),
      ih (fun x hx => h x (List.mem_cons_of_mem _ hx))]
    rfl

/-- Python `splitlines` of the serialized line-wise text of boundary-free
entries recovers exactly the entries. -/
theorem pySplitlines_entries (es : List Str)
    (h : ∀ e ∈ es, ∀ c ∈ e, c ≠ '\n' ∧ c ≠ '\r') :
    pySplitlines ((es.map (fun x => x ++ ['\n'])).flatten) = es := by
  unfold pySplitlines
  rw [pySplitlinesAux_entries es h]
  rw [if_pos (by rw [List.getLast?_concat])]
  rw [List.dropLast_concat]

/-- With the identity editor and newline-free, parseable entries, the
head-on-top flag makes `edit_todos_linewise` parse the exact reverse of the
flag-off parse. -/
theorem edit_todos_linewise_reverse (resolve : Str → Except String Commit)
    (todos : List CommitStep)
    (hclean : ∀ e ∈ linewiseEntries todos, ∀ c ∈ e, c ≠ '\n' ∧ c ≠ '\r')
    (hok : ∀ e ∈ linewiseEntries todos,
      pyIsSpace e = true ∨ ∃ v, parse_step resolve (pyStrip e) = .ok v) :
    ∃ vs, edit_todos_linewise id resolve todos false = .ok vs ∧
      edit_todos_linewise id resolve todos true = .ok vs.reverse := by
  obtain ⟨vs, hf, hr⟩ := parseLines_reverse resolve (linewiseEntries todos) hok
  refine ⟨vs, ?_, ?_⟩
  · simp only [edit_todos_linewise, Bool.false_eq_true, if_false, id_eq]
    rw [pySplitlines_entries _ hclean]
    exact hf
  · simp only [edit_todos_linewise, if_true, id_eq]
    rw [pySplitlines_entries (linewiseEntries todos).reverse
        (fun e he => hclean e (List.mem_reverse.mp he))]
    exact hr

/-- C8 (amended): the head-on-top presentation flag is a pure view transform
applied symmetrically; when the editor returns the serialized text unchanged,
the result of `edit_todos` — step order, messages and extra-step association
alike — is the same with the flag set or unset, provided the serialized
entries are delimiter-clean: in message-editing mode no entry may contain a
further line starting with the `"++ "` block delimiter, and in line-wise mode
no entry may contain a newline (and the entries must parse). -/
theorem c8_head_on_top_pure_view (resolve : Str → Except String Commit)
    (lookup : Oid → Commit) (todos : List CommitStep) (msgedit : Bool)
    (hm : msgedit = true →
      (∀ e ∈ msgeditEntries todos, msgeditEntryClean e = true) ∧
      (∀ e ∈ msgeditEntries todos, (parseBlock resolve (e ++ ['\n'])).isOk = true))
    (hl : msgedit = false →
      (∀ e ∈ linewiseEntries todos, ∀ c ∈ e, c ≠ '\n' ∧ c ≠ '\r') ∧
      (∀ e ∈ linewiseEntries todos,
        pyIsSpace e = true ∨ ∃ v, parse_step resolve (pyStrip e) = .ok v)) :
    edit_todos id resolve lookup todos msgedit true =
      edit_todos id resolve lookup todos msgedit false := by
  cases msgedit with
  | false =>
    obtain ⟨h1, h2⟩ := hl rfl
    obtain ⟨vs, hf, hr⟩ := edit_todos_linewise_reverse resolve todos h1 h2
    simp only [edit_todos, Bool.false_eq_true, if_false, if_true, hf, hr]
    have key : ∀ l1 l2 : List PolyStep, l1 = l2 →
        (do
          let result ← associateSteps [] l1
          match validate_todos lookup todos result with
            | Except.error e => Except.error e.describe
            | Except.ok _ => pure result) =
        ((do
          let result ← associateSteps [] l2
          match validate_todos lookup todos result with
            | Except.error e => Except.error e.describe
            | Except.ok _ => pure result) : Except String (List CommitStep)) := by
      intro l1 l2 h
      rw [h]
    exact key _ _ (List.reverse_reverse vs)
  | true =>
    obtain ⟨h1, h2⟩ := hm rfl
    obtain ⟨vs, hf, hr⟩ := edit_todos_msgedit_reverse resolve todos h1 h2
    simp only [edit_todos, Bool.false_eq_true, if_false, if_true, hf, hr]
    have key : ∀ l1 l2 : List PolyStep, l1 = l2 →
        (do
          let result ← associateSteps [] l1
          match validate_todos lookup todos result with
            | Except.error e => Except.error e.describe
            | Except.ok _ => pure result) =
        ((do
          let result ← associateSteps [] l2
          match validate_todos lookup todos result with
            | Except.error e => Except.error e.describe
            | Except.ok _ => pure result) : Except String (List CommitStep)) := by
      intro l1 l2 h
      rw [h]
    exact key _ _ (List.reverse_reverse vs)

/-- Concrete instance of the amended C8: a clean one-step plan in line-wise
mode round-trips identically under both presentation orders. -/
theorem c8_witness :
    edit_todos id
      (fun s => if s = "3".toList
        then .ok (Commit.mk 3 30 [0] "alpha msg".toList 7)
        else .error "unknown commit")
      (fun _ => Commit.mk 3 30 [0] "alpha msg".toList 7)
      [CommitStep.init .pick (Commit.mk 3 30 [0] "alpha msg".toList 7)]
      false true =
    edit_todos id
      (fun s => if s = "3".toList
        then .ok (Commit.mk 3 30 [0] "alpha msg".toList 7)
        else .error "unknown commit")
      (fun _ => Commit.mk 3 30 [0] "alpha msg".toList 7)
      [CommitStep.init .pick (Commit.mk 3 30 [0] "alpha msg".toList 7)]
      false false :=
  c8_head_on_top_pure_view
    (fun s => if s = "3".toList
      then .ok (Commit.mk 3 30 [0] "alpha msg".toList 7)
      else .error "unknown commit")
    (fun _ => Commit.mk 3 30 [0] "alpha msg".toList 7)
    [CommitStep.init .pick (Commit.mk 3 30 [0] "alpha msg".toList 7)]
    false
    (fun h => Bool.noConfusion h)
    (fun _ => ⟨by decide, by
      intro e he
      rw [show linewiseEntries [CommitStep.init .pick
          (Commit.mk 3 30 [0] "alpha msg".toList 7)] =
        ["pick 3 alpha msg".toList] from rfl] at he
      rw [List.mem_singleton.mp he]
      right
      exact ⟨_, rfl⟩⟩)

/-- Counterexample to C8 as stated: with the identity editor, a plan whose
first commit's message contains a line starting with the `"++ "` block
delimiter is edited successfully with the flag unset, but aborts with
"Actions can not be applied to the base commit" with the flag set — the view
transform is not symmetric for such plans. -/
theorem c8_counterexample :
    edit_todos id
      (fun s => if s = "1".toList
        then .ok (Commit.mk 1 10 [0] "part1\n++ # r\ntail".toList 7)
        else if s = "2".toList then .ok (Commit.mk 2 20 [1] "msgY".toList 7)
        else .error "unknown commit")
      (fun _ => Commit.mk 1 10 [0] "part1\n++ # r\ntail".toList 7)
      [CommitStep.init .pick (Commit.mk 1 10 [0] "part1\n++ # r\ntail".toList 7),
       CommitStep.init .pick (Commit.mk 2 20 [1] "msgY".toList 7)]
      true true ≠
    edit_todos id
      (fun s => if s = "1".toList
        then .ok (Commit.mk 1 10 [0] "part1\n++ # r\ntail".toList 7)
        else if s = "2".toList then .ok (Commit.mk 2 20 [1] "msgY".toList 7)
        else .error "unknown commit")
      (fun _ => Commit.mk 1 10 [0] "part1\n++ # r\ntail".toList 7)
      [CommitStep.init .pick (Commit.mk 1 10 [0] "part1\n++ # r\ntail".toList 7),
       CommitStep.init .pick (Commit.mk 2 20 [1] "msgY".toList 7)]
      true false := by
  decide

end GitRevise
